import Mathlib

/-
  Verification development for the feed-assembly and image-serving pipeline
  of the photo-sharing board in src/app.go (Go).

  Shallow embedding conventions:
  * machine times (time.Time) are modelled as Nat ticks; time.Now() values are
    passed in explicitly as `now` parameters (the Go clock is monotone, which
    theorems state as explicit hypotheses where needed);
  * the relational store is a DB value (lists of user / post / comment rows);
    SQL queries issued by the code are modelled by their semantics over those
    lists, with deterministic iteration order (MySQL leaves unordered result
    order unspecified; rows come back in table order here);
  * Go maps are modelled as association lists with unique keys and
    deterministic iteration order;
  * byte strings ([]byte) are modelled by ImgBytes: a length plus an abstract
    image interpretation (decodable image of some format and dimensions, or
    not decodable), since the only observations the program makes of image
    bytes are their length, decodability, format and dimensions.
-/

namespace Saba

/-- User row; mirrors the Go struct `User` in src/app.go. -/
structure User where
  id : Nat
  accountName : String
  passhash : String
  authority : Nat
  delFlg : Nat
  createdAt : Nat
  deriving DecidableEq, Repr

/-- The Go zero value `User{}`. -/
def User.zero : User :=
  { id := 0, accountName := "", passhash := "", authority := 0, delFlg := 0, createdAt := 0 }

/-- Comment row; mirrors the Go struct `Comment`. The `user` field is the
resolved author attached during hydration (Go zero value in raw DB rows). -/
structure Comment where
  id : Nat
  postId : Nat
  userId : Nat
  comment : String
  createdAt : Nat
  user : User
  deriving DecidableEq, Repr

/-- Abstract interpretation of a byte string as an image: either decodable by
the Go `image.Decode` auto-detector (with a format name such as "jpeg", "png",
"gif" and pixel dimensions), or not decodable. -/
inductive ImgData where
  | valid (format : String) (w : Nat) (h : Nat)
  | invalid
  deriving DecidableEq, Repr

/-- Model of a Go []byte: its length plus its abstract image interpretation. -/
structure ImgBytes where
  len : Nat
  data : ImgData
  deriving DecidableEq, Repr

/-- Post row; mirrors the Go struct `Post` (DB columns plus the derived fields
CommentCount, Comments, User, CSRFToken filled in by makePosts). -/
structure Post where
  id : Nat
  userId : Nat
  imgdata : ImgBytes
  body : String
  mime : String
  createdAt : Nat
  commentCount : Nat
  comments : List Comment
  user : User
  csrfToken : String
  deriving DecidableEq, Repr

/-- The relational store: the three tables the core reads. -/
structure DB where
  users : List User
  posts : List Post
  comments : List Comment
  deriving DecidableEq, Repr

/- ------------------------------------------------------------------ -/
/- Association-list model of Go maps (unique keys, deterministic order) -/
/- ------------------------------------------------------------------ -/

/-- Go map read `m[k]`. -/
def alookup {α β : Type} [DecidableEq α] (m : List (α × β)) (k : α) : Option β :=
  (m.find? (fun kv => kv.1 = k)).map (fun kv => kv.2)

/-- Go map write `m[k] = v`: overwrite in place if the key is present,
otherwise append a new binding. -/
def ainsert {α β : Type} [DecidableEq α] (m : List (α × β)) (k : α) (v : β) : List (α × β) :=
  if m.any (fun kv => kv.1 = k) then m.map (fun kv => if kv.1 = k then (k, v) else kv)
  else m ++ [(k, v)]

/-- Update the value stored at key `k` if present (models mutating through the
pointer obtained from a map lookup); no-op when the key is absent. -/
def aupdate {α β : Type} [DecidableEq α] (m : List (α × β)) (k : α) (f : β → β) : List (α × β) :=
  m.map (fun kv => if kv.1 = k then (k, f kv.2) else kv)

/- ------------------------------------------------------------------ -/
/- Constants from src/app.go                                           -/
/- ------------------------------------------------------------------ -/

/-- Upload size ceiling (10MB), constant `UploadLimit` in src/app.go. -/
def UploadLimit : Nat := 10 * 1024 * 1024

/-- Maximum image dimension (800px), constant `MaxImageSize` in src/app.go. -/
def MaxImageSize : Nat := 800

/- ------------------------------------------------------------------ -/
/- Image cache (src/app.go lines 52-67, 833-960)                       -/
/- ------------------------------------------------------------------ -/

/-- One cached payload with its last-access tick; mirrors Go `cacheEntry`. -/
structure CacheEntry where
  data : ImgBytes
  lastUse : Nat
  deriving DecidableEq, Repr

/-- The global `imageCache` state: key to entry map, byte budget, tracked
size counter (int64 in Go, hence Int here). -/
structure ImageCache where
  data : List (String × CacheEntry)
  maxSize : Int
  curSize : Int
  deriving DecidableEq, Repr

/-- The cache as initialized in src/app.go: empty, 100MB budget. -/
def initialImageCache : ImageCache :=
  { data := [], maxSize := 100 * 1024 * 1024, curSize := 0 }

/-- An empty cache with an arbitrary byte budget (the budget is fixed at
construction and never changed by any operation). -/
def mkCache (m : Int) : ImageCache :=
  { data := [], maxSize := m, curSize := 0 }

/-- The linear scan inside addToCache that searches the oldest entry:
`for k, v := range data { if oldestKey == "" || v.lastUse.Before(oldestTime)
 { oldestKey, oldestTime = k, v.lastUse } }`, carried accumulator
(oldestKey, oldestTime) starting from the Go zero values ("", 0). -/
def findOldestGo : List (String × CacheEntry) → String × Nat → String × Nat
  | [], acc => acc
  | kv :: rest, acc =>
    findOldestGo rest (if acc.1 = "" ∨ kv.2.lastUse < acc.2 then (kv.1, kv.2.lastUse) else acc)

/-- Key selected by the eviction scan (empty string when nothing selected). -/
def findOldestKey (m : List (String × CacheEntry)) : String :=
  (findOldestGo m ("", 0)).1

/-- Byte length of the entry stored at `k`
(`int64(len(imageCache.data[oldestKey].data))`; the scan only ever yields
present keys, so the absent case is unreachable in addToCache). -/
def entrySize (m : List (String × CacheEntry)) (k : String) : Int :=
  match m.find? (fun kv => kv.1 = k) with
  | some kv => (kv.2.data.len : Int)
  | none => 0

/-- Fuel-indexed unfolding of the eviction loop of addToCache:
`for curSize+newSize > maxSize { scan for oldest; if found, subtract its size
and delete it; else break }`. Each iteration that continues removes one entry,
so fuel = number of entries is always enough; evictLoop below instantiates the
fuel that way and theorem addToCache_eviction_terminates proves extra fuel
never changes the result (the loop totality / iteration-bound argument). -/
def evictLoopFuel (maxSize newSize : Int) :
    Nat → List (String × CacheEntry) → Int → List (String × CacheEntry) × Int
  | 0, m, cur => (m, cur)
  | Nat.succ fuel, m, cur =>
    if cur + newSize ≤ maxSize then (m, cur)
    else
      let oldestKey := findOldestKey m
      if oldestKey = "" then (m, cur)
      else evictLoopFuel maxSize newSize fuel
        (m.filter (fun kv => kv.1 ≠ oldestKey)) (cur - entrySize m oldestKey)

/-- The eviction loop of addToCache (src/app.go lines 842-857). -/
def evictLoop (maxSize newSize : Int) (m : List (String × CacheEntry)) (cur : Int) :
    List (String × CacheEntry) × Int :=
  evictLoopFuel maxSize newSize m.length m cur

/-- addToCache (src/app.go lines 834-865): evict until the new payload fits
(or the map is exhausted), then store the entry and bump the size counter.
Note the counter is bumped by the new payload length unconditionally, even
when the write overwrites an existing key. -/
def addToCache (c : ImageCache) (key : String) (d : ImgBytes) (now : Nat) : ImageCache :=
  let newSize : Int := (d.len : Int)
  let r := evictLoop c.maxSize newSize c.data c.curSize
  { c with data := ainsert r.1 key { data := d, lastUse := now }, curSize := r.2 + newSize }

/-- getFromCache (src/app.go lines 868-883): lookup; on a hit refresh the
entry's last-access tick in place and return its payload. -/
def getFromCache (c : ImageCache) (key : String) (now : Nat) : Option ImgBytes × ImageCache :=
  match c.data.find? (fun kv => kv.1 = key) with
  | none => (none, c)
  | some kv =>
    (some kv.2.data,
     { c with data := c.data.map (fun kv2 =>
         if kv2.1 = key then (kv2.1, { kv2.2 with lastUse := now }) else kv2) })

/-- clearImageCache (src/app.go lines 955-960): drop every entry and reset the
size counter. -/
def clearImageCache (c : ImageCache) : ImageCache :=
  { c with data := [], curSize := 0 }

/-- One external cache operation (the mutating API surface of the cache). -/
inductive CacheOp where
  | add (key : String) (d : ImgBytes)
  | get (key : String)
  | clear
  deriving DecidableEq, Repr

/-- Run one cache operation at clock tick `now`. -/
def runOp (c : ImageCache) (op : CacheOp) (now : Nat) : ImageCache :=
  match op with
  | .add key d => addToCache c key d now
  | .get key => (getFromCache c key now).2
  | .clear => clearImageCache c

/-- Run a sequence of cache operations, each paired with its clock tick. -/
def runOps (c : ImageCache) : List (CacheOp × Nat) → ImageCache
  | [] => c
  | (op, t) :: rest => runOps (runOp c op t) rest

/-- Sum of the stored payload byte lengths over the entries of a cache map. -/
def sumPayloadList (m : List (String × CacheEntry)) : Nat :=
  (m.map (fun kv => kv.2.data.len)).sum

/-- Sum of the stored payload byte lengths of the cache. -/
def sumPayload (c : ImageCache) : Nat := sumPayloadList c.data

/-- Keys of the cache map. -/
def keysOf (c : ImageCache) : List String := c.data.map (fun kv => kv.1)

/-- Every add in the operation sequence uses a nonempty key (true of the
program: keys are "pid.ext" strings, never empty). -/
def opsWF : List (CacheOp × Nat) → Bool
  | [] => true
  | (CacheOp.add key _, _) :: rest => (decide (key ≠ "")) && opsWF rest
  | _ :: rest => opsWF rest

/-- No add in the sequence overwrites: each add's key is absent from the cache
map at the moment the operation runs. -/
def noOverwrite (c : ImageCache) : List (CacheOp × Nat) → Bool
  | [] => true
  | (op, t) :: rest =>
    (match op with
     | CacheOp.add key _ => !(c.data.any (fun kv => kv.1 = key))
     | _ => true) && noOverwrite (runOp c op t) rest

/- ------------------------------------------------------------------ -/
/- Image transcoder (resizeImage, src/app.go lines 712-742)            -/
/- ------------------------------------------------------------------ -/

/-- image.Decode: succeeds on decodable bytes, yielding the detected format
name and the pixel dimensions. -/
def decodeImage (b : ImgBytes) : Option (String × Nat × Nat) :=
  match b.data with
  | .valid f w h => some (f, w, h)
  | .invalid => none

/-- Dimension contract of resize.Resize(width, height, img, Lanczos3) from the
nfnt/resize library (a dependency, so modelled from its documented contract):
when BOTH requested dimensions are nonzero the output has exactly those
dimensions (no aspect-ratio preservation); a zero dimension is computed from
the other to preserve the aspect ratio; both zero returns the original size.
src/app.go always calls it with (MaxImageSize, MaxImageSize), i.e. both
nonzero. Rounding of the aspect-preserving cases is approximated with Nat
division; that branch is never exercised by this program. -/
def resizeDims (width height w h : Nat) : Nat × Nat :=
  if width ≠ 0 ∧ height ≠ 0 then (width, height)
  else if width = 0 ∧ height = 0 then (w, h)
  else if width = 0 then ((w * height) / h, height)
  else (width, (h * width) / w)

/-- Re-encoding an in-memory image with the codec of the given format
(jpeg.Encode / png.Encode / gif.Encode). The byte length of the produced
encoding is abstracted as w*h; no claim observes it. -/
def encodeImage (format : String) (w h : Nat) : ImgBytes :=
  { len := w * h, data := .valid format w h }

/-- Format name image.Decode reports for bytes produced by the codec matching
the given mime type. -/
def mimeFormat (mime : String) : String :=
  if mime = "image/jpeg" then "jpeg"
  else if mime = "image/png" then "png"
  else if mime = "image/gif" then "gif"
  else ""

/-- resizeImage (src/app.go lines 712-742): decode; resize with
resize.Resize(MaxImageSize, MaxImageSize, img, Lanczos3); re-encode with the
codec selected by the declared mime; error on undecodable bytes or an
unsupported mime. -/
def resizeImage (imgData : ImgBytes) (mime : String) : Except String ImgBytes :=
  match decodeImage imgData with
  | none => .error "decode"
  | some (_, w, h) =>
    let r := resizeDims MaxImageSize MaxImageSize w h
    match mime with
    | "image/jpeg" => .ok (encodeImage "jpeg" r.1 r.2)
    | "image/png" => .ok (encodeImage "png" r.1 r.2)
    | "image/gif" => .ok (encodeImage "gif" r.1 r.2)
    | _ => .error "unsupported image type"

/- ------------------------------------------------------------------ -/
/- Upload path (postIndex, src/app.go lines 744-831)                   -/
/- ------------------------------------------------------------------ -/

/-- Character-list prefix test (helper for the strings.Contains model). -/
def charListPre : List Char → List Char → Bool
  | [], _ => true
  | _ :: _, [] => false
  | a :: pa, b :: pb => (a == b) && charListPre pa pb

/-- Character-list contiguous-occurrence test. -/
def charListOccurs (pat : List Char) : List Char → Bool
  | [] => pat.isEmpty
  | c :: rest => charListPre pat (c :: rest) || charListOccurs pat rest

/-- strings.Contains: sub occurs somewhere in s. -/
def goContains (s sub : String) : Bool :=
  charListOccurs sub.data s.data

/-- Content-Type sniffing of postIndex: mime is image/jpeg, image/png or
image/gif according to which token the header contains, else rejected. -/
def detectMime (contentType : String) : Option String :=
  if goContains contentType "jpeg" then some "image/jpeg"
  else if goContains contentType "png" then some "image/png"
  else if goContains contentType "gif" then some "image/gif"
  else none

/-- The row the upload path hands to
`INSERT INTO posts (user_id, mime, imgdata, body) VALUES (?,?,?,?)`. -/
structure PostInsertRow where
  userId : Nat
  mime : String
  imgdata : ImgBytes
  body : String
  deriving DecidableEq, Repr

/-- Observable outcome of the upload path after the session/CSRF plumbing:
either rejected with a flash notice (unsupported type / oversized file), or a
post row is inserted; the Bool records that clearImageCache was invoked. -/
inductive UploadOutcome where
  | rejected (notice : String)
  | stored (row : PostInsertRow) (cacheCleared : Bool)
  deriving DecidableEq, Repr

/-- Core of postIndex (src/app.go lines 766-822), after authentication and
CSRF checks and the multipart read: sniff the mime from the Content-Type,
enforce the upload limit, resize (falling back to the original bytes when
resizeImage fails), insert a post row, clear the image cache. -/
def postIndex (contentType : String) (filedata : ImgBytes) (body : String) (userId : Nat) :
    UploadOutcome :=
  match detectMime contentType with
  | none => .rejected "unsupported type"
  | some mime =>
    if UploadLimit < filedata.len then .rejected "file too large"
    else
      let resizedData :=
        match resizeImage filedata mime with
        | .ok d => d
        | .error _ => filedata
      .stored { userId := userId, mime := mime, imgdata := resizedData, body := body } true

/- ------------------------------------------------------------------ -/
/- Image read path (getImage, src/app.go lines 885-939)                -/
/- ------------------------------------------------------------------ -/

/-- Outcome of getImage before header writing: a not-found response, a bare
return after a DB read failure, or the bytes served. -/
inductive ImageResponse where
  | notFound
  | dbFail
  | served (d : ImgBytes)
  deriving DecidableEq, Repr

/-- Extension/mime agreement check of getImage:
`ext == "jpg" && mime == "image/jpeg" || ext == "png" && mime == "image/png"
 || ext == "gif" && mime == "image/gif"`. -/
def extMatchesMime (ext mime : String) : Bool :=
  (decide (ext = "jpg") && decide (mime = "image/jpeg")) ||
  (decide (ext = "png") && decide (mime = "image/png")) ||
  (decide (ext = "gif") && decide (mime = "image/gif"))

/-- getImage (src/app.go lines 885-939), up to the point the response body and
the resulting cache state are determined (header/ETag emission follows and
does not touch the cache): try the cache under key "pid.ext"; on a miss load
the post row, serve and populate the cache only when the requested extension
matches the stored mime, else answer not-found leaving the cache untouched. -/
def getImage (c : ImageCache) (db : DB) (pid : Nat) (ext : String) (now : Nat) :
    ImageResponse × ImageCache :=
  let cacheKey := toString pid ++ "." ++ ext
  match getFromCache c cacheKey now with
  | (some d, c2) => (.served d, c2)
  | (none, c2) =>
    match db.posts.find? (fun p => p.id = pid) with
    | none => (.dbFail, c2)
    | some post =>
      if extMatchesMime ext post.mime then
        (.served post.imgdata, addToCache c2 cacheKey post.imgdata now)
      else (.notFound, c2)

/- ------------------------------------------------------------------ -/
/- Feed assembler (makePosts, src/app.go lines 246-387)                -/
/- ------------------------------------------------------------------ -/

/-- Stable insertion into a list kept in descending created_at order (ties:
the inserted element goes first, making sortCommentsDesc a stable sort). -/
def insertDesc (c : Comment) : List Comment → List Comment
  | [] => [c]
  | d :: rest => if d.createdAt ≤ c.createdAt then c :: d :: rest else d :: insertDesc c rest

/-- Deterministic model of `ORDER BY created_at DESC` over comment rows
(MySQL leaves tie order unspecified; this model fixes a stable order). -/
def sortCommentsDesc : List Comment → List Comment
  | [] => []
  | c :: rest => insertDesc c (sortCommentsDesc rest)

/-- The user value built from the columns the aggregation queries select
(id, account_name, authority, del_flg, created_at; passhash is not selected,
so it keeps the Go zero value ""). -/
def aggUser (u : User) : User :=
  { id := u.id, accountName := u.accountName, passhash := "",
    authority := u.authority, delFlg := u.delFlg, createdAt := u.createdAt }

/-- The correlated subquery
`SELECT id FROM comments WHERE post_id = c.post_id ORDER BY created_at DESC
 LIMIT 3`: the ids of the three most recent comments of the post. -/
def top3Ids (db : DB) (pid : Nat) : List Nat :=
  ((sortCommentsDesc (db.comments.filter (fun c => c.postId = pid))).take 3).map
    (fun c => c.id)

/-- `JOIN users u ON c.user_id = u.id`: attach the resolved author to each
comment row, dropping rows whose author is missing (inner join). Table
primary keys make user ids unique, so the first matching user is the join
partner. -/
def joinUsers (db : DB) (l : List Comment) : List Comment :=
  l.filterMap (fun c =>
    (db.users.find? (fun u => u.id = c.userId)).map (fun u => { c with user := aggUser u }))

/-- Per-row action of the comment/user join when the author exists: attach the
resolved author (selected columns only) to the comment. -/
def attachUser (db : DB) (c : Comment) : Comment :=
  { c with user := aggUser ((db.users.find? (fun u => u.id = c.userId)).getD User.zero) }

/-- Result rows of the comment-fetch query of makePosts (src/app.go lines
315-350): comments of the queried posts - restricted to each post's three
most recent when allComments is false - joined with their authors, ordered by
created_at descending, truncated by `LIMIT 3*len(postIDs)` (the limit is
appended unconditionally, also when allComments is true). -/
def commentRows (db : DB) (postIDs : List Nat) (allComments : Bool) : List Comment :=
  let eligible := db.comments.filter (fun c =>
    decide (c.postId ∈ postIDs) &&
    (allComments || decide (c.id ∈ top3Ids db c.postId)))
  (sortCommentsDesc (joinUsers db eligible)).take (3 * postIDs.length)

/-- Rows of the first aggregation query: the post rows of the posts table
whose id is in the queried id set (`FROM posts p ... WHERE p.id IN (?)
GROUP BY p.id, u.id`). -/
def aggRows (db : DB) (postIDs : List Nat) : List Post :=
  db.posts.filter (fun p => decide (p.id ∈ postIDs))

/-- `postMap[p.ID] = &p` over the input rows (later duplicates overwrite). -/
def buildPostMap0 (results : List Post) : List (Nat × Post) :=
  results.foldl (fun m p => ainsert m p.id p) []

/-- Application of one row of the first aggregation query: set the matching
postMap entry's comment count (`COUNT(c.id)`) and author columns. -/
def applyAggRow (db : DB) (m : List (Nat × Post)) (q : Post) : List (Nat × Post) :=
  match db.users.find? (fun u => u.id = q.userId) with
  | some u =>
    aupdate m q.id (fun post =>
      { post with
          commentCount := db.comments.countP (fun c => decide (c.postId = q.id)),
          user := aggUser u })
  | none => m

/-- The scan loop over the rows of the first aggregation query. -/
def buildPostMap (db : DB) (agg : List Post) (m0 : List (Nat × Post)) : List (Nat × Post) :=
  agg.foldl (applyAggRow db) m0

/-- One step of the final merge loop of makePosts: look the input row up in
postMap, attach its comment list (`commentsMap[p.ID]`, i.e. the postId filter
of the ordered comment rows) and the CSRF token, and keep the entry only when
the hydrated author's del_flg is 0. -/
def mergeStep (pm : List (Nat × Post)) (rows : List Comment) (tok : String)
    (acc : List Post) (p : Post) : List Post :=
  match alookup pm p.id with
  | some post =>
    let post2 := { post with
                     comments := rows.filter (fun c => decide (c.postId = p.id)),
                     csrfToken := tok }
    if post2.user.delFlg == 0 then acc ++ [post2] else acc
  | none => acc

/-- The final merge loop of makePosts (`for _, p := range results { ... }`). -/
def mergeFold (pm : List (Nat × Post)) (rows : List Comment) (tok : String)
    (results : List Post) : List Post :=
  results.foldl (mergeStep pm rows tok) []

/-- makePosts (src/app.go lines 246-387). Faithfulness notes:
* empty input returns the nil slice with no queries;
* the first aggregation query `LEFT JOIN users` yields NULL user columns when
  a queried post's author id matches no user row; scanning NULL into the Go
  ints/time fails, so makePosts surfaces an error (the .error branch);
* per aggregation row the matching postMap entry gets comment_count
  (`COUNT(c.id)` = number of comment rows of that post) and the author
  columns (passhash not selected, hence "");
* the comment rows are appended per post in result-row order
  (commentsMap[postID] = append ...), i.e. each post's list is the postId
  filter of the ordered row list;
* the merge walks the original `results` order, attaches comments and the
  CSRF token, and keeps only entries whose hydrated author has del_flg 0.
  Comment authors are NOT filtered by del_flg anywhere. -/
def makePosts (db : DB) (results : List Post) (csrfToken : String) (allComments : Bool) :
    Except Unit (List Post) :=
  if results.isEmpty then .ok []
  else
    let postIDs := results.map (fun p => p.id)
    let agg := aggRows db postIDs
    if agg.any (fun q => (db.users.find? (fun u => u.id = q.userId)).isNone) then .error ()
    else
      .ok (mergeFold (buildPostMap db agg (buildPostMap0 results))
            (commentRows db postIDs allComments) csrfToken results)

/-- The author the aggregation query resolves for a given post id: the author
row of the posts-table row with that id (zero user when post or author is
missing; in that case makePosts errors or leaves the entry's user untouched). -/
def resolvedAuthor (db : DB) (pid : Nat) : User :=
  match db.posts.find? (fun q => q.id = pid) with
  | some q =>
    match db.users.find? (fun u => u.id = q.userId) with
    | some u => aggUser u
    | none => User.zero
  | none => User.zero

/-- The fully hydrated postMap entry for an input row `p` (comment count and
resolved author attached when the aggregation produced a row for p.id). -/
def hydratePost (db : DB) (p : Post) : Post :=
  match db.posts.find? (fun q => q.id = p.id) with
  | some q =>
    match db.users.find? (fun u => u.id = q.userId) with
    | some u =>
      { p with
          commentCount := db.comments.countP (fun c => decide (c.postId = q.id)),
          user := aggUser u }
    | none => p
  | none => p

/- ------------------------------------------------------------------ -/
/- Concrete instances used by witnesses and counterexamples            -/
/- ------------------------------------------------------------------ -/

/-- An ordinary (not banned) user. -/
def exUserA : User :=
  { id := 1, accountName := "alice", passhash := "h", authority := 0, delFlg := 0, createdAt := 1 }

/-- A banned user (deletion flag set). -/
def exUserBanned : User :=
  { id := 2, accountName := "mallory", passhash := "h", authority := 0, delFlg := 1, createdAt := 1 }

/-- Undecodable bytes of length 0. -/
def exBytesNone : ImgBytes := { len := 0, data := .invalid }

/-- Undecodable bytes of length 40 (cache payloads). -/
def exBytes40 : ImgBytes := { len := 40, data := .invalid }

/-- Undecodable bytes of length 100. -/
def exBytesHundred : ImgBytes := { len := 100, data := .invalid }

/-- A concrete comment row maker. -/
def exComment (i pid uid t : Nat) : Comment :=
  { id := i, postId := pid, userId := uid, comment := "c", createdAt := t, user := User.zero }

/-- A post row as the callers of makePosts select it
(id, user_id, body, mime, created_at; derived fields at Go zero values). -/
def exRow (i uid : Nat) : Post :=
  { id := i, userId := uid, imgdata := exBytesNone, body := "b", mime := "image/jpeg",
    createdAt := 0, commentCount := 0, comments := [], user := User.zero, csrfToken := "" }

/-- DB in which a banned user commented on an ordinary user's post. -/
def exDbBanned : DB :=
  { users := [exUserA, exUserBanned], posts := [exRow 1 1],
    comments := [exComment 1 1 2 10] }

/-- DB with a single post carrying four comments (distinct times). -/
def exDbFour : DB :=
  { users := [exUserA], posts := [exRow 1 1],
    comments := [exComment 1 1 1 10, exComment 2 1 1 20, exComment 3 1 1 30,
                 exComment 4 1 1 40] }

/-- DB with post 1 by an ordinary user and post 2 by a banned user. -/
def exDbTwo : DB :=
  { users := [exUserA, exUserBanned], posts := [exRow 1 1, exRow 2 2], comments := [] }

/-- DB holding post 42 stored with mime image/png. -/
def exDbPng : DB :=
  { users := [exUserA],
    posts := [{ exRow 42 1 with mime := "image/png", imgdata := exBytes40 }],
    comments := [] }

/-- Cache at budget 100 holding A(40 bytes, older) and B(40 bytes, newer). -/
def exCacheAB : ImageCache :=
  { data := [("a", { data := exBytes40, lastUse := 1 }),
             ("b", { data := exBytes40, lastUse := 2 })],
    maxSize := 100, curSize := 80 }

/- ================================================================== -/
/- Theorems                                                            -/
/- ================================================================== -/

/-- Every entry the merge loop emits passed the `post.User.DelFlg == 0`
check, whatever the postMap and comment rows are. -/
theorem mergeFold_delFlg (pm : List (Nat × Post)) (rows : List Comment) (tok : String)
    (l : List Post) : ∀ p ∈ mergeFold pm rows tok l, p.user.delFlg = 0 := by
  unfold mergeFold
  suffices h : ∀ acc, (∀ p ∈ acc, p.user.delFlg = 0) →
      ∀ p ∈ l.foldl (mergeStep pm rows tok) acc, p.user.delFlg = 0 by
    exact h [] (by intro p hp; cases hp)
  induction l with
  | nil => intro acc hacc; simpa using hacc
  | cons q rest ih =>
    intro acc hacc
    simp only [List.foldl_cons]
    apply ih
    intro p hp
    simp only [mergeStep] at hp
    split at hp
    case h_1 post halo =>
      split at hp
      case isTrue hdel =>
        rcases List.mem_append.mp hp with h | h
        · exact hacc p h
        · rw [List.mem_singleton.mp h]
          simp only [beq_iff_eq] at hdel
          simpa using hdel
      case isFalse => exact hacc p hp
    case h_2 => exact hacc p hp

/-- Claim C1, amended part: no post authored by a user with the deletion flag
set appears in makePosts output (every returned entry has del_flg 0; the
original claim's second half about comment authors is refuted by
makePosts_banned_comment_visible). -/
theorem makePosts_output_authors_not_banned (db : DB) (results : List Post) (tok : String)
    (allC : Bool) (out : List Post) (hok : makePosts db results tok allC = Except.ok out) :
    ∀ p ∈ out, p.user.delFlg = 0 := by
  simp only [makePosts] at hok
  split at hok
  · cases hok
    intro p hp
    cases hp
  · split at hok
    · cases hok
    · cases hok
      exact mergeFold_delFlg _ _ _ _

/-- Witness for the amended Claim C1: at a concrete database the hypothesis
holds and every emitted entry's author has del_flg 0. -/
theorem makePosts_output_authors_not_banned_witness :
    makePosts exDbBanned [exRow 1 1] "tok" false =
      Except.ok ((makePosts exDbBanned [exRow 1 1] "tok" false).toOption.getD []) ∧
    ∀ p ∈ (makePosts exDbBanned [exRow 1 1] "tok" false).toOption.getD [],
      p.user.delFlg = 0 :=
  ⟨by rfl,
   makePosts_output_authors_not_banned exDbBanned [exRow 1 1] "tok" false
     ((makePosts exDbBanned [exRow 1 1] "tok" false).toOption.getD []) (by rfl)⟩

/-- Claim C1 counterexample: the comment-fetch query joins users but never
filters on the author's del_flg, so a banned user's comment is returned in a
hydrated entry: at exDbBanned the single emitted entry has an author with
del_flg 0 but carries a comment whose author has del_flg 1. -/
theorem makePosts_banned_comment_visible :
    (makePosts exDbBanned [exRow 1 1] "tok" false).toOption.map
      (fun l => l.map (fun p => (p.user.delFlg, p.comments.map (fun c => c.user.delFlg)))) =
      some [(0, [1])] := by
  rfl

/-- Claim C3 (code bug evidence): `LIMIT 3*len(postIDs)` is appended to the
comment query unconditionally, so with allComments=true the single post of
exDbFour, which has comment_count 4, comes back with only 3 comments. -/
theorem makePosts_allComments_truncated :
    (makePosts exDbFour [exRow 1 1] "" true).toOption.map
      (fun l => l.map (fun p => (p.commentCount, p.comments.length))) =
      some [(4, 3)] := by
  rfl

/-- Claim C7 counterexample: resize.Resize is called with BOTH target
dimensions set to MaxImageSize, which per the library contract stretches to
exactly 800x800; a 1600x800 JPEG (aspect 2:1) comes back 800x800 (aspect
1:1), so the resize does not preserve the aspect ratio. -/
theorem resizeImage_squashes_aspect :
    resizeImage { len := 999, data := .valid "jpeg" 1600 800 } "image/jpeg" =
      Except.ok { len := 800 * 800, data := .valid "jpeg" 800 800 } ∧
    ¬(1600 * 800 = 800 * 800) :=
  ⟨rfl, by decide⟩

/-- Claim C7, amended: for every decodable input and supported mime,
resizeImage succeeds and returns bytes decodable as that same mime whose
width and height are both exactly MaxImageSize (hence at most the maximum);
the aspect ratio is preserved only for square inputs. -/
theorem resizeImage_bounded_dims (b : ImgBytes) (f : String) (w h : Nat) (mime : String)
    (hb : b.data = ImgData.valid f w h)
    (hm : mime = "image/jpeg" ∨ mime = "image/png" ∨ mime = "image/gif") :
    resizeImage b mime = Except.ok (encodeImage (mimeFormat mime) MaxImageSize MaxImageSize) ∧
    decodeImage (encodeImage (mimeFormat mime) MaxImageSize MaxImageSize) =
      some (mimeFormat mime, MaxImageSize, MaxImageSize) := by
  rcases hm with hm | hm | hm <;> subst hm <;>
    exact ⟨by simp [resizeImage, decodeImage, hb, resizeDims, MaxImageSize, mimeFormat], rfl⟩

/-- Witness for the amended Claim C7 at a 30x20 PNG. -/
theorem resizeImage_bounded_dims_witness :
    ({ len := 999, data := .valid "png" 30 20 } : ImgBytes).data = ImgData.valid "png" 30 20 ∧
    resizeImage { len := 999, data := .valid "png" 30 20 } "image/png" =
      Except.ok (encodeImage (mimeFormat "image/png") MaxImageSize MaxImageSize) ∧
    decodeImage (encodeImage (mimeFormat "image/png") MaxImageSize MaxImageSize) =
      some (mimeFormat "image/png", MaxImageSize, MaxImageSize) := by
  refine ⟨rfl, ?_⟩
  exact resizeImage_bounded_dims _ "png" 30 20 _ rfl (Or.inr (Or.inl rfl))

/-- Claim C9: when the upload passes the size limit and resizeImage fails,
postIndex stores the original unresized bytes under the declared mime and the
insert (and cache clear) proceed exactly as in the success case. -/
theorem postIndex_resize_fallback (contentType : String) (filedata : ImgBytes) (body : String)
    (userId : Nat) (mime e : String)
    (hmime : detectMime contentType = some mime)
    (hsize : filedata.len ≤ UploadLimit)
    (herr : resizeImage filedata mime = Except.error e) :
    postIndex contentType filedata body userId =
      UploadOutcome.stored { userId := userId, mime := mime, imgdata := filedata, body := body }
        true := by
  simp [postIndex, hmime, herr, Nat.not_lt.mpr hsize]

/-- Witness for Claim C9: an undecodable 100-byte upload declared image/jpeg
falls back to storing those bytes unchanged. -/
theorem postIndex_resize_fallback_witness :
    detectMime "image/jpeg" = some "image/jpeg" ∧
    exBytesHundred.len ≤ UploadLimit ∧
    resizeImage exBytesHundred "image/jpeg" = Except.error "decode" ∧
    postIndex "image/jpeg" exBytesHundred "hi" 7 =
      UploadOutcome.stored
        { userId := 7, mime := "image/jpeg", imgdata := exBytesHundred, body := "hi" } true := by
  refine ⟨by rfl, by decide, by rfl, ?_⟩
  exact postIndex_resize_fallback "image/jpeg" exBytesHundred "hi" 7 "image/jpeg" "decode"
    (by rfl) (by decide) (by rfl)

/-- Claim C8: an image read that misses the cache and whose requested
extension does not match the stored post's mime (jpg/image-jpeg,
png/image-png, gif/image-gif) answers not-found and leaves the cache state
completely unchanged. -/
theorem getImage_mismatch_notFound (c : ImageCache) (db : DB) (pid : Nat) (ext : String)
    (now : Nat) (post : Post)
    (hmiss : c.data.find? (fun kv => kv.1 = toString pid ++ "." ++ ext) = none)
    (hpost : db.posts.find? (fun p => p.id = pid) = some post)
    (hmime : extMatchesMime ext post.mime = false) :
    getImage c db pid ext now = (ImageResponse.notFound, c) := by
  simp [getImage, getFromCache, hmiss, hpost, hmime]

/- ------------------------------------------------------------------ -/
/- Eviction-scan lemmas                                                -/
/- ------------------------------------------------------------------ -/

/-- The scan result is either the starting accumulator or the (key, lastUse)
pair of some scanned entry. -/
theorem findOldestGo_acc_or_mem (l : List (String × CacheEntry)) :
    ∀ acc : String × Nat, findOldestGo l acc = acc ∨
      ∃ kv ∈ l, findOldestGo l acc = (kv.1, kv.2.lastUse) := by
  induction l with
  | nil => intro acc; exact Or.inl rfl
  | cons kv rest ih =>
    intro acc
    simp only [findOldestGo]
    by_cases hc : acc.1 = "" ∨ kv.2.lastUse < acc.2
    · rw [if_pos hc]
      rcases ih (kv.1, kv.2.lastUse) with h | ⟨kv2, hm, he⟩
      · exact Or.inr ⟨kv, List.mem_cons_self kv rest, h⟩
      · exact Or.inr ⟨kv2, List.mem_cons_of_mem kv hm, he⟩
    · rw [if_neg hc]
      rcases ih acc with h | ⟨kv2, hm, he⟩
      · exact Or.inl h
      · exact Or.inr ⟨kv2, List.mem_cons_of_mem kv hm, he⟩

/-- If the scan selected a key, that key belongs to the map. -/
theorem findOldestKey_mem (m : List (String × CacheEntry)) (h : findOldestKey m ≠ "") :
    ∃ kv ∈ m, kv.1 = findOldestKey m := by
  unfold findOldestKey at h ⊢
  rcases findOldestGo_acc_or_mem m ("", 0) with he | ⟨kv, hm, he⟩
  · rw [he] at h; exact absurd rfl h
  · exact ⟨kv, hm, by rw [he]⟩

/-- With only nonempty keys, the scan never comes back with the empty
sentinel once the accumulator holds a real key. -/
theorem findOldestGo_ne_empty (l : List (String × CacheEntry)) :
    ∀ acc : String × Nat, acc.1 ≠ "" → (∀ kv ∈ l, kv.1 ≠ "") →
      (findOldestGo l acc).1 ≠ "" := by
  induction l with
  | nil => intro acc h _; exact h
  | cons kv rest ih =>
    intro acc hacc hkeys
    simp only [findOldestGo]
    by_cases hc : acc.1 = "" ∨ kv.2.lastUse < acc.2
    · rw [if_pos hc]
      exact ih (kv.1, kv.2.lastUse) (hkeys kv (List.mem_cons_self kv rest))
        (fun kv2 h2 => hkeys kv2 (List.mem_cons_of_mem kv h2))
    · rw [if_neg hc]
      exact ih acc hacc (fun kv2 h2 => hkeys kv2 (List.mem_cons_of_mem kv h2))

/-- On a nonempty map with nonempty keys the scan selects a real key. -/
theorem findOldestKey_ne_empty (kv0 : String × CacheEntry) (rest : List (String × CacheEntry))
    (hkeys : ∀ kv ∈ kv0 :: rest, kv.1 ≠ "") :
    findOldestKey (kv0 :: rest) ≠ "" := by
  unfold findOldestKey
  simp only [findOldestGo, if_pos (Or.inl rfl)]
  exact findOldestGo_ne_empty rest (kv0.1, kv0.2.lastUse)
    (hkeys kv0 (List.mem_cons_self kv0 rest))
    (fun kv2 h2 => hkeys kv2 (List.mem_cons_of_mem kv0 h2))

/-- With nonempty keys the scan tracks the minimum of the accumulator and the
scanned last-use ticks. -/
theorem findOldestGo_min (l : List (String × CacheEntry)) (hkeys : ∀ kv ∈ l, kv.1 ≠ "") :
    ∀ acc : String × Nat, acc.1 ≠ "" →
      (findOldestGo l acc).2 ≤ acc.2 ∧ ∀ kv ∈ l, (findOldestGo l acc).2 ≤ kv.2.lastUse := by
  induction l with
  | nil =>
    intro acc _
    exact ⟨Nat.le_refl _, by intro kv h; cases h⟩
  | cons kv rest ih =>
    intro acc hacc
    have hkrest : ∀ kv2 ∈ rest, kv2.1 ≠ "" :=
      fun kv2 h2 => hkeys kv2 (List.mem_cons_of_mem kv h2)
    simp only [findOldestGo]
    by_cases hc : acc.1 = "" ∨ kv.2.lastUse < acc.2
    · rw [if_pos hc]
      have hlt : kv.2.lastUse < acc.2 := by
        rcases hc with h | h
        · exact absurd h hacc
        · exact h
      obtain ⟨h1, h2⟩ := ih hkrest (kv.1, kv.2.lastUse) (hkeys kv (List.mem_cons_self kv rest))
      refine ⟨Nat.le_trans h1 (Nat.le_of_lt hlt), ?_⟩
      intro kv2 hkv2
      rcases List.mem_cons.mp hkv2 with rfl | hm
      · exact h1
      · exact h2 kv2 hm
    · rw [if_neg hc]
      have hge : acc.2 ≤ kv.2.lastUse := by
        rcases Nat.lt_or_ge kv.2.lastUse acc.2 with h | h
        · exact absurd (Or.inr h) hc
        · exact h
      obtain ⟨h1, h2⟩ := ih hkrest acc hacc
      refine ⟨h1, ?_⟩
      intro kv2 hkv2
      rcases List.mem_cons.mp hkv2 with rfl | hm
      · exact Nat.le_trans h1 hge
      · exact h2 kv2 hm

/-- On a nonempty map the scan result is some entry's (key, lastUse) pair. -/
theorem findOldestGo_achieved (kv0 : String × CacheEntry) (rest : List (String × CacheEntry)) :
    ∃ kv ∈ kv0 :: rest, findOldestGo (kv0 :: rest) ("", 0) = (kv.1, kv.2.lastUse) := by
  simp only [findOldestGo, if_pos (Or.inl rfl)]
  rcases findOldestGo_acc_or_mem rest (kv0.1, kv0.2.lastUse) with h | ⟨kv, hm, he⟩
  · exact ⟨kv0, List.mem_cons_self kv0 rest, h⟩
  · exact ⟨kv, List.mem_cons_of_mem kv0 hm, he⟩

/-- The scan's selected tick is a lower bound of every entry's tick. -/
theorem findOldestKey_min (kv0 : String × CacheEntry) (rest : List (String × CacheEntry))
    (hkeys : ∀ kv ∈ kv0 :: rest, kv.1 ≠ "") :
    ∀ kv ∈ kv0 :: rest, (findOldestGo (kv0 :: rest) ("", 0)).2 ≤ kv.2.lastUse := by
  simp only [findOldestGo, if_pos (Or.inl rfl)]
  obtain ⟨h1, h2⟩ := findOldestGo_min rest
    (fun kv2 h2 => hkeys kv2 (List.mem_cons_of_mem kv0 h2))
    (kv0.1, kv0.2.lastUse) (hkeys kv0 (List.mem_cons_self kv0 rest))
  intro kv hkv
  rcases List.mem_cons.mp hkv with rfl | hm
  · exact h1
  · exact h2 kv hm

/-- With nonempty keys and pairwise distinct last-use ticks, the scan selects
exactly the key of the entry with the minimal tick. -/
theorem findOldestKey_eq_argmin (m : List (String × CacheEntry)) (k0 : String) (e0 : CacheEntry)
    (hkeys : ∀ kv ∈ m, kv.1 ≠ "")
    (htimes : (m.map (fun kv => kv.2.lastUse)).Nodup)
    (hmem : (k0, e0) ∈ m) (hmin : ∀ kv ∈ m, e0.lastUse ≤ kv.2.lastUse) :
    findOldestKey m = k0 := by
  match m, hmem with
  | kv0 :: rest, hmem =>
    obtain ⟨kv, hkvmem, he⟩ := findOldestGo_achieved kv0 rest
    have hmintick := findOldestKey_min kv0 rest hkeys
    have h1 : kv.2.lastUse ≤ e0.lastUse := by
      have := hmintick (k0, e0) hmem
      rw [he] at this
      exact this
    have h2 : e0.lastUse ≤ kv.2.lastUse := hmin kv hkvmem
    have heq : kv.2.lastUse = (k0, e0).2.lastUse := Nat.le_antisymm h1 h2
    have hkv : kv = (k0, e0) :=
      List.inj_on_of_nodup_map htimes hkvmem hmem heq
    unfold findOldestKey
    rw [he, hkv]

/- ------------------------------------------------------------------ -/
/- Eviction-loop lemmas                                                -/
/- ------------------------------------------------------------------ -/

/-- The loop only removes entries: its resulting map is a sublist. -/
theorem evictLoopFuel_sublist (maxSize newSize : Int) :
    ∀ (f : Nat) (m : List (String × CacheEntry)) (cur : Int),
      (evictLoopFuel maxSize newSize f m cur).1.Sublist m := by
  intro f
  induction f with
  | zero => intro m cur; exact List.Sublist.refl m
  | succ f ih =>
    intro m cur
    simp only [evictLoopFuel]
    by_cases hb : cur + newSize ≤ maxSize
    · rw [if_pos hb]
    · rw [if_neg hb]
      by_cases hk : findOldestKey m = ""
      · rw [if_pos hk]
      · rw [if_neg hk]
        exact List.Sublist.trans (ih _ _) (List.filter_sublist m)

/-- One unit of fuel beyond the map size never changes the loop's result:
each continuing iteration strictly shrinks the map, so `|m|` iterations always
reach a fixpoint. -/
theorem evictLoopFuel_succ_of_le (maxSize newSize : Int) :
    ∀ (f : Nat) (m : List (String × CacheEntry)) (cur : Int), m.length ≤ f →
      evictLoopFuel maxSize newSize (f + 1) m cur = evictLoopFuel maxSize newSize f m cur := by
  intro f
  induction f with
  | zero =>
    intro m cur hlen
    have hm : m = [] := List.length_eq_zero.mp (Nat.le_zero.mp hlen)
    subst hm
    simp [evictLoopFuel, findOldestKey, findOldestGo]
  | succ f ih =>
    intro m cur hlen
    conv_lhs => simp only [evictLoopFuel]
    conv_rhs => simp only [evictLoopFuel]
    by_cases hb : cur + newSize ≤ maxSize
    · rw [if_pos hb, if_pos hb]
    · rw [if_neg hb, if_neg hb]
      by_cases hk : findOldestKey m = ""
      · rw [if_pos hk, if_pos hk]
      · rw [if_neg hk, if_neg hk]
        obtain ⟨kv, hkvmem, hkey⟩ := findOldestKey_mem m hk
        have hlt : (m.filter (fun kv => kv.1 ≠ findOldestKey m)).length < m.length := by
          apply List.length_filter_lt_length_iff_exists.mpr
          exact ⟨kv, hkvmem, by simp [hkey]⟩
        exact ih _ _ (Nat.le_of_lt_succ (Nat.lt_of_lt_of_le hlt hlen))

/-- A map whose element a function leaves pointwise unchanged is unchanged. -/
theorem map_eq_self_of {α : Type} (m : List α) (f : α → α) (h : ∀ a ∈ m, f a = a) :
    m.map f = m := by
  induction m with
  | nil => rfl
  | cons a t ih =>
    rw [List.map_cons, h a (List.mem_cons_self a t), ih (fun b hb => h b (List.mem_cons_of_mem a hb))]

/-- find? by key returns the unique binding of that key in a nodup-keyed map. -/
theorem find?_fst_of_nodup {α β : Type} [DecidableEq α] (m : List (α × β)) (kv : α × β)
    (hnd : (m.map (fun x => x.1)).Nodup) (hmem : kv ∈ m) :
    m.find? (fun x => x.1 = kv.1) = some kv := by
  induction m with
  | nil => cases hmem
  | cons h t ih =>
    rw [List.map_cons, List.nodup_cons] at hnd
    rcases List.mem_cons.mp hmem with rfl | hm
    · exact List.find?_cons_of_pos t (by simp)
    · have hne : h.1 ≠ kv.1 := by
        intro he
        exact hnd.1 (he ▸ List.mem_map_of_mem (fun x => x.1) hm)
      rw [List.find?_cons_of_neg t (by simp [hne])]
      exact ih hnd.2 hm

/-- Removing the unique binding of a key splits the payload sum. -/
theorem sumPayloadList_filter_ne (m : List (String × CacheEntry)) (kvE : String × CacheEntry)
    (hnd : (m.map (fun x => x.1)).Nodup) (hmem : kvE ∈ m) :
    sumPayloadList m =
      sumPayloadList (m.filter (fun x => x.1 ≠ kvE.1)) + kvE.2.data.len := by
  induction m with
  | nil => cases hmem
  | cons h t ih =>
    rw [List.map_cons, List.nodup_cons] at hnd
    rcases List.mem_cons.mp hmem with rfl | hm
    · have ht : t.filter (fun x => decide (x.1 ≠ kvE.1)) = t := by
        apply List.filter_eq_self.mpr
        intro a ha
        simp only [decide_eq_true_eq]
        intro he
        exact hnd.1 (he ▸ List.mem_map_of_mem (fun x => x.1) ha)
      simp only [sumPayloadList, List.map_cons, List.sum_cons, List.filter_cons]
      simp only [decide_not, decide_eq_true_eq]
      rw [if_neg (by simp)]
      rw [show t.filter (fun x => !decide (x.1 = kvE.1)) = t from by
        simpa [decide_not] using ht]
      exact Nat.add_comm _ _
    · have hne : h.1 ≠ kvE.1 := by
        intro he
        exact hnd.1 (he ▸ List.mem_map_of_mem (fun x => x.1) hm)
      simp only [sumPayloadList, List.map_cons, List.sum_cons, List.filter_cons]
      rw [if_pos (by simp [hne])]
      simp only [sumPayloadList] at ih
      rw [List.map_cons, List.sum_cons, ih hnd.2 hm, Nat.add_assoc]

/-- Keys of an ainsert: unchanged on overwrite, the new key appended when
fresh. -/
theorem ainsert_map_fst {α β : Type} [DecidableEq α] (m : List (α × β)) (k : α) (v : β) :
    (ainsert m k v).map (fun kv => kv.1) =
      if m.any (fun kv => kv.1 = k) then m.map (fun kv => kv.1)
      else m.map (fun kv => kv.1) ++ [k] := by
  unfold ainsert
  by_cases h : m.any (fun kv => kv.1 = k)
  · rw [if_pos h, if_pos h, List.map_map]
    apply List.map_congr_left
    intro kv _
    by_cases hk : kv.1 = k
    · simp [hk]
    · simp [hk]
  · rw [if_neg h, if_neg h, List.map_append]
    rfl

/-- ainsert preserves key uniqueness. -/
theorem ainsert_nodup {α β : Type} [DecidableEq α] (m : List (α × β)) (k : α) (v : β)
    (hnd : (m.map (fun kv => kv.1)).Nodup) :
    ((ainsert m k v).map (fun kv => kv.1)).Nodup := by
  rw [ainsert_map_fst]
  by_cases h : m.any (fun kv => kv.1 = k)
  · rw [if_pos h]; exact hnd
  · rw [if_neg h]
    have hk : k ∉ m.map (fun kv => kv.1) := by
      intro hkm
      obtain ⟨kv, hkv, hk1⟩ := List.mem_map.mp hkm
      exact h (List.any_eq_true.mpr ⟨kv, hkv, by simp [hk1]⟩)
    simp [List.nodup_append, hnd, hk]

/-- Payload sum after an ainsert grows by at most the new payload (exactly,
minus the overwritten payload, when the key was present). -/
theorem sumPayloadList_ainsert_le (m : List (String × CacheEntry)) (k : String) (e : CacheEntry)
    (hnd : (m.map (fun kv => kv.1)).Nodup) :
    sumPayloadList (ainsert m k e) ≤ sumPayloadList m + e.data.len := by
  unfold ainsert
  by_cases h : m.any (fun kv => kv.1 = k)
  · rw [if_pos h]
    clear h
    induction m with
    | nil => simp [sumPayloadList]
    | cons hd t ih =>
      rw [List.map_cons, List.nodup_cons] at hnd
      by_cases hk : hd.1 = k
      · have ht : t.map (fun kv => if kv.1 = k then (k, e) else kv) = t := by
          apply map_eq_self_of
          intro kv hkv
          rw [if_neg ?_]
          intro he
          exact hnd.1 ((hk.trans he.symm) ▸ List.mem_map_of_mem (fun x => x.1) hkv)
        simp only [sumPayloadList, List.map_cons, List.sum_cons, if_pos hk, ht]
        omega
      · simp only [sumPayloadList, List.map_cons, List.sum_cons, if_neg hk]
        have := ih hnd.2
        simp only [sumPayloadList] at this
        omega
  · rw [if_neg h]
    simp [sumPayloadList]

/-- Payload sum after a fresh-key ainsert grows by exactly the new payload. -/
theorem sumPayloadList_ainsert_fresh (m : List (String × CacheEntry)) (k : String)
    (e : CacheEntry) (h : m.any (fun kv => kv.1 = k) = false) :
    sumPayloadList (ainsert m k e) = sumPayloadList m + e.data.len := by
  unfold ainsert
  rw [h]
  simp [sumPayloadList]

/-- The running size / payload sum relation and the loop postcondition of the
eviction loop: with unique nonempty keys and enough fuel, the final counter
is the initial one minus the evicted payload, and the loop stops either under
budget or with an exhausted map. -/
theorem evictLoopFuel_spec (maxSize newSize : Int) :
    ∀ (f : Nat) (m : List (String × CacheEntry)) (cur : Int),
      (m.map (fun kv => kv.1)).Nodup → (∀ kv ∈ m, kv.1 ≠ "") → m.length ≤ f →
      (evictLoopFuel maxSize newSize f m cur).2 =
          cur - (sumPayloadList m : Int) +
            (sumPayloadList (evictLoopFuel maxSize newSize f m cur).1 : Int) ∧
      ((evictLoopFuel maxSize newSize f m cur).2 + newSize ≤ maxSize ∨
        (evictLoopFuel maxSize newSize f m cur).1 = []) := by
  intro f
  induction f with
  | zero =>
    intro m cur hnd hne hlen
    have hm : m = [] := List.length_eq_zero.mp (Nat.le_zero.mp hlen)
    subst hm
    exact ⟨by simp [evictLoopFuel], Or.inr rfl⟩
  | succ f ih =>
    intro m cur hnd hne hlen
    simp only [evictLoopFuel]
    by_cases hb : cur + newSize ≤ maxSize
    · rw [if_pos hb]
      exact ⟨by dsimp only; rw [Int.sub_add_cancel], Or.inl hb⟩
    · rw [if_neg hb]
      by_cases hk : findOldestKey m = ""
      · rw [if_pos hk]
        refine ⟨by dsimp only; rw [Int.sub_add_cancel], Or.inr ?_⟩
        match m, hne with
        | [], _ => rfl
        | kv0 :: rest, hne => exact absurd hk (findOldestKey_ne_empty kv0 rest hne)
      · rw [if_neg hk]
        obtain ⟨kvE, hkvmem, hkey⟩ := findOldestKey_mem m hk
        have hsz : entrySize m (findOldestKey m) = (kvE.2.data.len : Int) := by
          unfold entrySize
          rw [← hkey, find?_fst_of_nodup m kvE hnd hkvmem]
        have hsum : sumPayloadList m =
            sumPayloadList (m.filter (fun x => x.1 ≠ findOldestKey m)) + kvE.2.data.len := by
          rw [← hkey]
          exact sumPayloadList_filter_ne m kvE hnd hkvmem
        have hsubkeys : (m.filter (fun x => x.1 ≠ findOldestKey m)).map (fun kv => kv.1)
            |>.Nodup :=
          ((List.filter_sublist m).map (fun kv => kv.1)).nodup hnd
        have hsubne : ∀ kv ∈ m.filter (fun x => x.1 ≠ findOldestKey m), kv.1 ≠ "" :=
          fun kv hkv => hne kv (List.mem_of_mem_filter hkv)
        have hlt : (m.filter (fun x => x.1 ≠ findOldestKey m)).length < m.length := by
          apply List.length_filter_lt_length_iff_exists.mpr
          exact ⟨kvE, hkvmem, by simp [hkey]⟩
        have hlen2 : (m.filter (fun x => x.1 ≠ findOldestKey m)).length ≤ f :=
          Nat.le_of_lt_succ (Nat.lt_of_lt_of_le hlt hlen)
        obtain ⟨ih1, ih2⟩ := ih (m.filter (fun x => x.1 ≠ findOldestKey m))
          (cur - entrySize m (findOldestKey m)) hsubkeys hsubne hlen2
        refine ⟨?_, ih2⟩
        rw [ih1, hsz, hsum]
        push_cast
        ring

/-- Claim C10: the eviction loop inside addToCache terminates, running at most
as many iterations as there are entries: giving the loop any amount of fuel
beyond the entry count computes the same result as evictLoop (which runs it
with exactly `|entries|` fuel), so addToCache is a total function. -/
theorem addToCache_eviction_terminates (maxSize newSize : Int)
    (m : List (String × CacheEntry)) (cur : Int) (extra : Nat) :
    evictLoopFuel maxSize newSize (m.length + extra) m cur =
      evictLoop maxSize newSize m cur := by
  induction extra with
  | zero => rfl
  | succ k ih =>
    rw [← ih]
    exact evictLoopFuel_succ_of_le maxSize newSize (m.length + k) m cur (Nat.le_add_right _ _)

/-- getFromCache only touches last-access ticks: keys, payload sum, size
counter, budget and entry count are unchanged. -/
theorem getFromCache_state (c : ImageCache) (key : String) (now : Nat) :
    ((getFromCache c key now).2).data.map (fun kv => kv.1) = c.data.map (fun kv => kv.1) ∧
    sumPayloadList ((getFromCache c key now).2).data = sumPayloadList c.data ∧
    ((getFromCache c key now).2).curSize = c.curSize ∧
    ((getFromCache c key now).2).maxSize = c.maxSize ∧
    ((getFromCache c key now).2).data.length = c.data.length := by
  unfold getFromCache
  cases hf : c.data.find? (fun kv => kv.1 = key) with
  | none => exact ⟨rfl, rfl, rfl, rfl, rfl⟩
  | some kv =>
    refine ⟨?_, ?_, rfl, rfl, by simp⟩
    · rw [List.map_map]
      apply List.map_congr_left
      intro kv2 _
      by_cases hk : kv2.1 = key <;> simp [hk]
    · unfold sumPayloadList
      rw [List.map_map]
      congr 1
      apply List.map_congr_left
      intro kv2 _
      by_cases hk : kv2.1 = key <;> simp [hk]

/-- One addToCache call re-establishes the cache invariant: keys stay unique
and nonempty, the tracked counter bounds the payload sum, and the sum can
only exceed the budget when the map was exhausted down to the single new
entry. -/
theorem addToCache_step (c : ImageCache) (key : String) (d : ImgBytes) (now : Nat)
    (hkey : key ≠ "")
    (hnd : (c.data.map (fun kv => kv.1)).Nodup)
    (hne : ∀ kv ∈ c.data, kv.1 ≠ "")
    (hsum : (sumPayload c : Int) ≤ c.curSize) :
    ((addToCache c key d now).data.map (fun kv => kv.1)).Nodup ∧
    (∀ kv ∈ (addToCache c key d now).data, kv.1 ≠ "") ∧
    (sumPayload (addToCache c key d now) : Int) ≤ (addToCache c key d now).curSize ∧
    ((addToCache c key d now).maxSize < (sumPayload (addToCache c key d now) : Int) →
      (addToCache c key d now).data.length = 1) ∧
    (addToCache c key d now).maxSize = c.maxSize := by
  have hspec : (evictLoop c.maxSize (d.len : Int) c.data c.curSize).2 =
      c.curSize - (sumPayloadList c.data : Int) +
        (sumPayloadList (evictLoop c.maxSize (d.len : Int) c.data c.curSize).1 : Int) ∧
      ((evictLoop c.maxSize (d.len : Int) c.data c.curSize).2 + (d.len : Int) ≤ c.maxSize ∨
        (evictLoop c.maxSize (d.len : Int) c.data c.curSize).1 = []) :=
    evictLoopFuel_spec c.maxSize (d.len : Int) c.data.length c.data c.curSize hnd hne
      (Nat.le_refl _)
  have hsub : (evictLoop c.maxSize (d.len : Int) c.data c.curSize).1.Sublist c.data :=
    evictLoopFuel_sublist c.maxSize (d.len : Int) c.data.length c.data c.curSize
  set r := evictLoop c.maxSize (d.len : Int) c.data c.curSize with hrdef
  have ha : addToCache c key d now =
      { data := ainsert r.1 key { data := d, lastUse := now },
        maxSize := c.maxSize, curSize := r.2 + (d.len : Int) } := rfl
  have hnd1 : (r.1.map (fun kv => kv.1)).Nodup := (hsub.map (fun kv => kv.1)).nodup hnd
  have hne1 : ∀ kv ∈ r.1, kv.1 ≠ "" := fun kv hkv => hne kv (hsub.subset hkv)
  have hne2 : ∀ kv ∈ ainsert r.1 key { data := d, lastUse := now }, kv.1 ≠ "" := by
    intro kv hkv
    unfold ainsert at hkv
    by_cases hany : r.1.any (fun x => x.1 = key)
    · rw [if_pos hany] at hkv
      obtain ⟨kv0, hkv0, rfl⟩ := List.mem_map.mp hkv
      by_cases hk : kv0.1 = key
      · rw [if_pos hk]; exact hkey
      · rw [if_neg hk]; exact hne1 kv0 hkv0
    · rw [if_neg hany] at hkv
      rcases List.mem_append.mp hkv with h | h
      · exact hne1 kv h
      · rw [List.mem_singleton.mp h]; exact hkey
  have hle : sumPayloadList (ainsert r.1 key { data := d, lastUse := now }) ≤
      sumPayloadList r.1 + d.len :=
    sumPayloadList_ainsert_le r.1 key { data := d, lastUse := now } hnd1
  have hr2ge : (sumPayloadList r.1 : Int) ≤ r.2 := by
    have h1 := hspec.1
    have h2 : (sumPayload c : Int) ≤ c.curSize := hsum
    unfold sumPayload at h2
    omega
  rw [ha]
  refine ⟨ainsert_nodup _ _ _ hnd1, hne2, ?_, ?_, rfl⟩
  · show (sumPayloadList (ainsert r.1 key { data := d, lastUse := now }) : Int) ≤
      r.2 + (d.len : Int)
    omega
  · show c.maxSize < (sumPayloadList (ainsert r.1 key { data := d, lastUse := now }) : Int) →
      (ainsert r.1 key { data := d, lastUse := now }).length = 1
    intro hover
    rcases hspec.2 with hunder | hempty
    · omega
    · rw [hempty]
      rfl

/-- The cache invariant holds after any operation sequence with nonempty add
keys, starting from any state satisfying it, and the budget never changes. -/
theorem runOps_inv (ops : List (CacheOp × Nat)) :
    ∀ c : ImageCache, opsWF ops = true → 0 ≤ c.maxSize →
      (c.data.map (fun kv => kv.1)).Nodup → (∀ kv ∈ c.data, kv.1 ≠ "") →
      (sumPayload c : Int) ≤ c.curSize →
      (c.maxSize < (sumPayload c : Int) → c.data.length = 1) →
      ((runOps c ops).data.map (fun kv => kv.1)).Nodup ∧
      (∀ kv ∈ (runOps c ops).data, kv.1 ≠ "") ∧
      (sumPayload (runOps c ops) : Int) ≤ (runOps c ops).curSize ∧
      ((runOps c ops).maxSize < (sumPayload (runOps c ops) : Int) →
        (runOps c ops).data.length = 1) ∧
      (runOps c ops).maxSize = c.maxSize := by
  induction ops with
  | nil =>
    intro c _ _ h1 h2 h3 h4
    exact ⟨h1, h2, h3, h4, rfl⟩
  | cons opt rest ih =>
    obtain ⟨op, t⟩ := opt
    intro c hwf hM h1 h2 h3 h4
    cases op with
    | add key d =>
      have hwf2 : ((decide (key ≠ "")) && opsWF rest) = true := hwf
      rw [Bool.and_eq_true, decide_eq_true_eq] at hwf2
      obtain ⟨hkey, hrest⟩ := hwf2
      obtain ⟨a1, a2, a3, a4, a5⟩ := addToCache_step c key d t hkey h1 h2 h3
      have hres := ih (addToCache c key d t) hrest (a5 ▸ hM) a1 a2 a3 a4
      exact ⟨hres.1, hres.2.1, hres.2.2.1, hres.2.2.2.1, hres.2.2.2.2.trans a5⟩
    | get key =>
      obtain ⟨g1, g2, g3, g4, g5⟩ := getFromCache_state c key t
      have h1g : (((getFromCache c key t).2).data.map (fun kv => kv.1)).Nodup := by
        rw [g1]; exact h1
      have h2g : ∀ kv ∈ ((getFromCache c key t).2).data, kv.1 ≠ "" := by
        intro kv hkv
        have hmem : kv.1 ∈ ((getFromCache c key t).2).data.map (fun kv => kv.1) :=
          List.mem_map_of_mem (fun kv => kv.1) hkv
        rw [g1] at hmem
        obtain ⟨kv0, hkv0, he⟩ := List.mem_map.mp hmem
        rw [← he]
        exact h2 kv0 hkv0
      have h3g : (sumPayload ((getFromCache c key t).2) : Int) ≤
          ((getFromCache c key t).2).curSize := by
        unfold sumPayload
        rw [g2, g3]
        exact h3
      have h4g : ((getFromCache c key t).2).maxSize <
          (sumPayload ((getFromCache c key t).2) : Int) →
          ((getFromCache c key t).2).data.length = 1 := by
        unfold sumPayload
        rw [g2, g4, g5]
        exact h4
      have hres := ih ((getFromCache c key t).2) hwf (g4 ▸ hM) h1g h2g h3g h4g
      exact ⟨hres.1, hres.2.1, hres.2.2.1, hres.2.2.2.1, hres.2.2.2.2.trans g4⟩
    | clear =>
      have hres := ih (clearImageCache c) hwf hM (by simp [clearImageCache])
        (by intro kv hkv; cases hkv)
        (by simp [clearImageCache, sumPayload, sumPayloadList])
        (by intro hover; simp [clearImageCache, sumPayload, sumPayloadList] at hover; omega)
      exact ⟨hres.1, hres.2.1, hres.2.2.1, hres.2.2.2.1, hres.2.2.2.2⟩

/-- With no overwriting adds the size counter tracks the payload sum
exactly. -/
theorem runOps_eq_sum (ops : List (CacheOp × Nat)) :
    ∀ c : ImageCache, opsWF ops = true → noOverwrite c ops = true →
      (c.data.map (fun kv => kv.1)).Nodup → (∀ kv ∈ c.data, kv.1 ≠ "") →
      c.curSize = (sumPayload c : Int) →
      (runOps c ops).curSize = (sumPayload (runOps c ops) : Int) := by
  induction ops with
  | nil => intro c _ _ _ _ h; exact h
  | cons opt rest ih =>
    obtain ⟨op, t⟩ := opt
    intro c hwf hno h1 h2 heq
    cases op with
    | add key d =>
      have hwf2 : ((decide (key ≠ "")) && opsWF rest) = true := hwf
      rw [Bool.and_eq_true, decide_eq_true_eq] at hwf2
      obtain ⟨hkey, hrest⟩ := hwf2
      have hno2 : ((!(c.data.any (fun kv => kv.1 = key))) &&
          noOverwrite (addToCache c key d t) rest) = true := hno
      rw [Bool.and_eq_true, Bool.not_eq_true'] at hno2
      obtain ⟨hfresh, hnorest⟩ := hno2
      obtain ⟨a1, a2, _, _, _⟩ := addToCache_step c key d t hkey h1 h2 (le_of_eq heq.symm)
      apply ih (addToCache c key d t) hrest hnorest a1 a2
      -- exact size tracking through this add
      have hspec : (evictLoop c.maxSize (d.len : Int) c.data c.curSize).2 =
          c.curSize - (sumPayloadList c.data : Int) +
            (sumPayloadList (evictLoop c.maxSize (d.len : Int) c.data c.curSize).1 : Int) :=
        (evictLoopFuel_spec c.maxSize (d.len : Int) c.data.length c.data c.curSize h1 h2
          (Nat.le_refl _)).1
      have hsub : (evictLoop c.maxSize (d.len : Int) c.data c.curSize).1.Sublist c.data :=
        evictLoopFuel_sublist c.maxSize (d.len : Int) c.data.length c.data c.curSize
      set r := evictLoop c.maxSize (d.len : Int) c.data c.curSize with hrdef
      have hfresh1 : r.1.any (fun kv => kv.1 = key) = false := by
        rw [Bool.eq_false_iff]
        intro hany
        obtain ⟨kv, hkv, hk⟩ := List.any_eq_true.mp hany
        have hc : c.data.any (fun kv => kv.1 = key) = true :=
          List.any_eq_true.mpr ⟨kv, hsub.subset hkv, hk⟩
        rw [hfresh] at hc
        cases hc
      have hins : sumPayloadList (ainsert r.1 key { data := d, lastUse := t }) =
          sumPayloadList r.1 + d.len :=
        sumPayloadList_ainsert_fresh r.1 key { data := d, lastUse := t } hfresh1
      show r.2 + (d.len : Int) =
        (sumPayloadList (ainsert r.1 key { data := d, lastUse := t }) : Int)
      rw [hins]
      have heq2 : c.curSize = (sumPayloadList c.data : Int) := heq
      omega
    | get key =>
      have hno2 : noOverwrite ((getFromCache c key t).2) rest = true := by
        simpa [noOverwrite] using hno
      obtain ⟨g1, g2, g3, g4, g5⟩ := getFromCache_state c key t
      have h1g : (((getFromCache c key t).2).data.map (fun kv => kv.1)).Nodup := by
        rw [g1]; exact h1
      have h2g : ∀ kv ∈ ((getFromCache c key t).2).data, kv.1 ≠ "" := by
        intro kv hkv
        have hmem : kv.1 ∈ ((getFromCache c key t).2).data.map (fun kv => kv.1) :=
          List.mem_map_of_mem (fun kv => kv.1) hkv
        rw [g1] at hmem
        obtain ⟨kv0, hkv0, he⟩ := List.mem_map.mp hmem
        rw [← he]
        exact h2 kv0 hkv0
      apply ih ((getFromCache c key t).2) hwf hno2 h1g h2g
      unfold sumPayload
      rw [g2, g3]
      exact heq
    | clear =>
      have hno2 : noOverwrite (clearImageCache c) rest = true := by
        simpa [noOverwrite] using hno
      apply ih (clearImageCache c) hwf hno2 (by simp [clearImageCache])
        (by intro kv hkv; cases hkv)
      simp [clearImageCache, sumPayload, sumPayloadList]

/-- Claim C4, amended: after every sequence of addToCache (with nonempty
keys), getFromCache and clearImageCache calls starting from the empty cache
with budget M ≥ 0, the tracked counter curSize is an UPPER BOUND of the sum
of stored payload lengths, with equality whenever no addToCache call used a
key already present at call time (an overwriting add bumps the counter by the
full new length without subtracting the overwritten entry, so plain equality
fails: cache_size_counter_drifts); and the payload sum exceeds maxSize only
when the cache holds exactly one entry (the single-oversized-entry slack). -/
theorem cache_size_tracking (M : Int) (hM : 0 ≤ M) (ops : List (CacheOp × Nat))
    (hwf : opsWF ops = true) :
    (sumPayload (runOps (mkCache M) ops) : Int) ≤ (runOps (mkCache M) ops).curSize ∧
    (M < (sumPayload (runOps (mkCache M) ops) : Int) →
      (runOps (mkCache M) ops).data.length = 1) ∧
    (noOverwrite (mkCache M) ops = true →
      (runOps (mkCache M) ops).curSize = (sumPayload (runOps (mkCache M) ops) : Int)) := by
  obtain ⟨_, _, h3, h4, h5⟩ := runOps_inv ops (mkCache M) hwf hM
    (by simp [mkCache]) (by intro kv hkv; cases hkv)
    (by simp [mkCache, sumPayload, sumPayloadList])
    (by intro h; simp only [mkCache, sumPayload, sumPayloadList] at h ⊢; simp at h; omega)
  refine ⟨h3, ?_, ?_⟩
  · have hM2 : (runOps (mkCache M) ops).maxSize = M := h5
    rw [hM2] at h4
    exact h4
  · intro hno
    exact runOps_eq_sum ops (mkCache M) hwf hno (by simp [mkCache])
      (by intro kv hkv; cases hkv) (by simp [mkCache, sumPayload, sumPayloadList])

/-- Witness for the amended Claim C4 at a concrete operation sequence
(add, hit, fresh add, full clear). -/
theorem cache_size_tracking_witness :
    (0 : Int) ≤ 100 ∧
    opsWF [(CacheOp.add "a" exBytes40, 1), (CacheOp.get "a", 2),
           (CacheOp.add "b" exBytes40, 3), (CacheOp.clear, 4)] = true ∧
    ((sumPayload (runOps (mkCache 100)
        [(CacheOp.add "a" exBytes40, 1), (CacheOp.get "a", 2),
         (CacheOp.add "b" exBytes40, 3), (CacheOp.clear, 4)]) : Int) ≤
      (runOps (mkCache 100)
        [(CacheOp.add "a" exBytes40, 1), (CacheOp.get "a", 2),
         (CacheOp.add "b" exBytes40, 3), (CacheOp.clear, 4)]).curSize ∧
     ((100 : Int) < (sumPayload (runOps (mkCache 100)
        [(CacheOp.add "a" exBytes40, 1), (CacheOp.get "a", 2),
         (CacheOp.add "b" exBytes40, 3), (CacheOp.clear, 4)]) : Int) →
       (runOps (mkCache 100)
        [(CacheOp.add "a" exBytes40, 1), (CacheOp.get "a", 2),
         (CacheOp.add "b" exBytes40, 3), (CacheOp.clear, 4)]).data.length = 1) ∧
     (noOverwrite (mkCache 100)
        [(CacheOp.add "a" exBytes40, 1), (CacheOp.get "a", 2),
         (CacheOp.add "b" exBytes40, 3), (CacheOp.clear, 4)] = true →
       (runOps (mkCache 100)
        [(CacheOp.add "a" exBytes40, 1), (CacheOp.get "a", 2),
         (CacheOp.add "b" exBytes40, 3), (CacheOp.clear, 4)]).curSize =
       (sumPayload (runOps (mkCache 100)
        [(CacheOp.add "a" exBytes40, 1), (CacheOp.get "a", 2),
         (CacheOp.add "b" exBytes40, 3), (CacheOp.clear, 4)]) : Int))) := by
  refine ⟨by decide, by decide, ?_⟩
  exact cache_size_tracking 100 (by decide)
    [(CacheOp.add "a" exBytes40, 1), (CacheOp.get "a", 2),
     (CacheOp.add "b" exBytes40, 3), (CacheOp.clear, 4)] (by decide)

/-- Claim C4 counterexample: two addToCache calls on the SAME key leave the
tracked counter at 80 while the single stored payload sums to 40 - the
counter does not equal the sum of stored payload lengths. -/
theorem cache_size_counter_drifts :
    (runOps (mkCache 100)
      [(CacheOp.add "a" exBytes40, 1), (CacheOp.add "a" exBytes40, 2)]).curSize = 80 ∧
    sumPayload (runOps (mkCache 100)
      [(CacheOp.add "a" exBytes40, 1), (CacheOp.add "a" exBytes40, 2)]) = 40 ∧
    ¬((runOps (mkCache 100)
        [(CacheOp.add "a" exBytes40, 1), (CacheOp.add "a" exBytes40, 2)]).curSize =
      (sumPayload (runOps (mkCache 100)
        [(CacheOp.add "a" exBytes40, 1), (CacheOp.add "a" exBytes40, 2)]) : Int)) := by
  exact ⟨by rfl, by rfl, by decide⟩

/-- Claim C5: for a cache state with pairwise distinct last-access ticks (and
the program's unique, nonempty keys), an addToCache that forces eviction
removes the entry with the oldest lastUse first: the eviction scan selects
exactly the minimal-tick entry (conjunct 1) and that entry is absent from the
cache afterwards (conjunct 2); and a getFromCache hit on some key performed
just before (at a tick later than every stored tick, as time.Now is monotone)
protects that entry: the scan of a subsequent forcing add no longer selects
it (conjunct 3). -/
theorem addToCache_evicts_lru (c : ImageCache) (k0 : String) (e0 : CacheEntry)
    (key : String) (d : ImgBytes) (now : Nat)
    (hne : ∀ kv ∈ c.data, kv.1 ≠ "")
    (hnd : (c.data.map (fun kv => kv.1)).Nodup)
    (htimes : (c.data.map (fun kv => kv.2.lastUse)).Nodup)
    (hmem : (k0, e0) ∈ c.data)
    (hmin : ∀ kv ∈ c.data, e0.lastUse ≤ kv.2.lastUse)
    (hforce : c.maxSize < c.curSize + (d.len : Int))
    (hkey : key ≠ k0) :
    findOldestKey c.data = k0 ∧
    (addToCache c key d now).data.find? (fun kv => kv.1 = k0) = none ∧
    (∀ (k : String) (now2 : Nat), k ∈ c.data.map (fun kv => kv.1) →
      2 ≤ c.data.length → (∀ kv ∈ c.data, kv.2.lastUse < now2) →
      findOldestKey ((getFromCache c k now2).2).data ≠ k) := by
  have hk0ne : k0 ≠ "" := hne (k0, e0) hmem
  have h1 : findOldestKey c.data = k0 :=
    findOldestKey_eq_argmin c.data k0 e0 hne htimes hmem hmin
  obtain ⟨n, hn⟩ : ∃ n, c.data.length = n + 1 := by
    refine ⟨c.data.length - 1, ?_⟩
    have hno : c.data ≠ [] := by
      intro h0
      rw [h0] at hmem
      cases hmem
    have hpos : 0 < c.data.length := List.length_pos.mpr hno
    omega
  have hstep : evictLoop c.maxSize (d.len : Int) c.data c.curSize =
      evictLoopFuel c.maxSize (d.len : Int) n
        (c.data.filter (fun kv => kv.1 ≠ findOldestKey c.data))
        (c.curSize - entrySize c.data (findOldestKey c.data)) := by
    rw [evictLoop, hn]
    simp only [evictLoopFuel]
    rw [if_neg (by omega), if_neg (by rw [h1]; exact hk0ne)]
  have hsub2 : (evictLoop c.maxSize (d.len : Int) c.data c.curSize).1.Sublist
      (c.data.filter (fun kv => kv.1 ≠ findOldestKey c.data)) := by
    rw [hstep]
    exact evictLoopFuel_sublist _ _ _ _ _
  have hnotk0 : ∀ kv ∈ (evictLoop c.maxSize (d.len : Int) c.data c.curSize).1,
      kv.1 ≠ k0 := by
    intro kv hkv
    have hmem2 := hsub2.subset hkv
    have hpred := List.of_mem_filter hmem2
    rw [h1] at hpred
    simpa using hpred
  refine ⟨h1, ?_, ?_⟩
  · apply List.find?_eq_none.mpr
    intro kv hkv
    have ha : (addToCache c key d now).data =
        ainsert (evictLoop c.maxSize (d.len : Int) c.data c.curSize).1 key
          { data := d, lastUse := now } := rfl
    rw [ha] at hkv
    unfold ainsert at hkv
    simp only [decide_eq_true_eq]
    by_cases hany : (evictLoop c.maxSize (d.len : Int) c.data c.curSize).1.any
        (fun x => x.1 = key)
    · rw [if_pos hany] at hkv
      obtain ⟨kv0, hkv0, rfl⟩ := List.mem_map.mp hkv
      by_cases hk : kv0.1 = key
      · rw [if_pos hk]; exact hkey
      · rw [if_neg hk]; exact hnotk0 kv0 hkv0
    · rw [if_neg hany] at hkv
      rcases List.mem_append.mp hkv with h | h
      · exact hnotk0 kv h
      · rw [List.mem_singleton.mp h]; exact hkey
  · intro k now2 hkmem h2len hlt
    obtain ⟨kvF, hkvF⟩ : ∃ kv, c.data.find? (fun kv => kv.1 = k) = some kv := by
      obtain ⟨kv0, hkv0, hk0eq⟩ := List.mem_map.mp hkmem
      cases hf : c.data.find? (fun kv => kv.1 = k) with
      | some kv => exact ⟨kv, rfl⟩
      | none =>
        have hx := List.find?_eq_none.mp hf kv0 hkv0
        simp [hk0eq] at hx
    have hm2eq : ((getFromCache c k now2).2).data =
        c.data.map (fun kv2 =>
          if kv2.1 = k then (kv2.1, { kv2.2 with lastUse := now2 }) else kv2) := by
      unfold getFromCache
      rw [hkvF]
    have hkval : ∀ kv ∈ ((getFromCache c k now2).2).data, kv.1 = k →
        kv.2.lastUse = now2 := by
      intro kv hkv hk1
      rw [hm2eq] at hkv
      obtain ⟨kv0, hkv0, rfl⟩ := List.mem_map.mp hkv
      by_cases hc0 : kv0.1 = k
      · rw [if_pos hc0]
      · rw [if_neg hc0] at hk1 ⊢
        exact absurd hk1 hc0
    have hm2ne : ∀ kv ∈ ((getFromCache c k now2).2).data, kv.1 ≠ "" := by
      intro kv hkv
      rw [hm2eq] at hkv
      obtain ⟨kv0, hkv0, rfl⟩ := List.mem_map.mp hkv
      by_cases hc0 : kv0.1 = k
      · rw [if_pos hc0]; exact hne kv0 hkv0
      · rw [if_neg hc0]; exact hne kv0 hkv0
    obtain ⟨a, l1, hd1⟩ : ∃ a l1, c.data = a :: l1 := by
      cases hd : c.data with
      | nil => rw [hd] at hn; cases hn
      | cons a l1 => exact ⟨a, l1, rfl⟩
    obtain ⟨b, l2, hd2⟩ : ∃ b l2, l1 = b :: l2 := by
      cases hd : l1 with
      | nil => rw [hd1, hd] at h2len; simp at h2len
      | cons b l2 => exact ⟨b, l2, rfl⟩
    have hab : a.1 ≠ b.1 := by
      rw [hd1, hd2] at hnd
      simp only [List.map_cons, List.nodup_cons, List.mem_cons] at hnd
      intro he
      exact hnd.1 (Or.inl he)
    obtain ⟨kvO, hkvOmem, hkvOk, hkvOtime⟩ :
        ∃ kvO ∈ c.data, kvO.1 ≠ k ∧ kvO.2.lastUse < now2 := by
      by_cases hak : a.1 = k
      · have hbk : b.1 ≠ k := fun hh => hab (hak.trans hh.symm)
        have hbmem : b ∈ c.data := by
          rw [hd1, hd2]
          exact List.mem_cons_of_mem a (List.mem_cons_self b l2)
        exact ⟨b, hbmem, hbk, hlt b hbmem⟩
      · have hamem : a ∈ c.data := by rw [hd1]; exact List.mem_cons_self a l1
        exact ⟨a, hamem, hak, hlt a hamem⟩
    have hkvOmem2 : kvO ∈ ((getFromCache c k now2).2).data := by
      rw [hm2eq]
      apply List.mem_map.mpr
      refine ⟨kvO, hkvOmem, ?_⟩
      simp only [if_neg hkvOk]
    obtain ⟨kv0m, rest ,hm2d⟩ : ∃ kv0m rest, ((getFromCache c k now2).2).data
        = kv0m :: rest := by
      cases hd : ((getFromCache c k now2).2).data with
      | nil => rw [hd] at hkvOmem2; cases hkvOmem2
      | cons x y => exact ⟨x, y, rfl⟩
    intro hEq
    obtain ⟨kvA, hkvA, heA⟩ := findOldestGo_achieved kv0m rest
    have hAkey : kvA.1 = k := by
      have : findOldestKey ((getFromCache c k now2).2).data = kvA.1 := by
        unfold findOldestKey
        rw [hm2d, heA]
      rw [← this]
      exact hEq
    have hAtime : kvA.2.lastUse = now2 := by
      apply hkval kvA ?_ hAkey
      rw [hm2d]
      exact hkvA
    have hminA := findOldestKey_min kv0m rest (by rw [← hm2d]; exact hm2ne) kvO
      (by rw [← hm2d]; exact hkvOmem2)
    rw [heA] at hminA
    rw [hAtime] at hminA
    exact absurd (Nat.lt_of_le_of_lt hminA hkvOtime) (Nat.lt_irrefl now2)

/-- Witness for Claim C5 at the spec scenario: budget 100, A(40, tick 1),
B(40, tick 2); put C(40) forces eviction and evicts A; a preceding hit
protects the touched entry from being selected. -/
theorem addToCache_evicts_lru_witness :
    (∀ kv ∈ exCacheAB.data, kv.1 ≠ "") ∧
    (exCacheAB.data.map (fun kv => kv.1)).Nodup ∧
    (exCacheAB.data.map (fun kv => kv.2.lastUse)).Nodup ∧
    (("a", ({ data := exBytes40, lastUse := 1 } : CacheEntry)) ∈ exCacheAB.data) ∧
    (∀ kv ∈ exCacheAB.data,
      ({ data := exBytes40, lastUse := 1 } : CacheEntry).lastUse ≤ kv.2.lastUse) ∧
    (exCacheAB.maxSize < exCacheAB.curSize + (exBytes40.len : Int)) ∧
    ("c" ≠ "a") ∧
    (findOldestKey exCacheAB.data = "a" ∧
     (addToCache exCacheAB "c" exBytes40 3).data.find? (fun kv => kv.1 = "a") = none ∧
     (∀ (k : String) (now2 : Nat), k ∈ exCacheAB.data.map (fun kv => kv.1) →
       2 ≤ exCacheAB.data.length → (∀ kv ∈ exCacheAB.data, kv.2.lastUse < now2) →
       findOldestKey ((getFromCache exCacheAB k now2).2).data ≠ k)) := by
  refine ⟨by decide, by decide, by decide, by decide, by decide, by decide, by decide, ?_⟩
  exact addToCache_evicts_lru exCacheAB "a" { data := exBytes40, lastUse := 1 } "c" exBytes40 3
    (by decide) (by decide) (by decide) (by decide) (by decide) (by decide) (by decide)

/- ------------------------------------------------------------------ -/
/- postMap lemmas (first aggregation query of makePosts)               -/
/- ------------------------------------------------------------------ -/

/-- find? by a unique key returns the element carrying it. -/
theorem find?_key_unique {β γ : Type} [DecidableEq γ] (key : β → γ) :
    ∀ (l : List β) (b : β), (l.map key).Nodup → b ∈ l →
      l.find? (fun x => key x = key b) = some b := by
  intro l
  induction l with
  | nil => intro b _ h; cases h
  | cons a t ih =>
    intro b hnd hmem
    rw [List.map_cons, List.nodup_cons] at hnd
    rcases List.mem_cons.mp hmem with rfl | hm
    · exact List.find?_cons_of_pos t (by simp)
    · have hne : key a ≠ key b := by
        intro he
        exact hnd.1 (he ▸ List.mem_map_of_mem key hm)
      rw [List.find?_cons_of_neg t (by simp [hne])]
      exact ih b hnd.2 hm

/-- Map lookup of a binding present in a nodup-keyed map. -/
theorem alookup_eq {α β : Type} [DecidableEq α] (m : List (α × β)) (kv : α × β)
    (hnd : (m.map (fun x => x.1)).Nodup) (hmem : kv ∈ m) : alookup m kv.1 = some kv.2 := by
  unfold alookup
  rw [find?_fst_of_nodup m kv hnd hmem]
  rfl

/-- Lookup at a different key is unaffected by an aupdate. -/
theorem alookup_aupdate_ne {α β : Type} [DecidableEq α] (m : List (α × β)) (k k2 : α)
    (f : β → β) (h : ¬ (k = k2)) : alookup (aupdate m k f) k2 = alookup m k2 := by
  unfold aupdate alookup
  induction m with
  | nil => rfl
  | cons kv t ih =>
    rw [List.map_cons]
    by_cases hk : kv.1 = k
    · rw [if_pos hk]
      rw [List.find?_cons_of_neg _ (by simp [h]), List.find?_cons_of_neg _
        (by simp [hk ▸ h])]
      exact ih
    · rw [if_neg hk]
      by_cases h2 : kv.1 = k2
      · rw [List.find?_cons_of_pos _ (by simp [h2]), List.find?_cons_of_pos _ (by simp [h2])]
      · rw [List.find?_cons_of_neg _ (by simp [h2]), List.find?_cons_of_neg _ (by simp [h2])]
        exact ih

/-- Lookup at the updated key sees the update applied. -/
theorem alookup_aupdate_eq {α β : Type} [DecidableEq α] (m : List (α × β)) (k : α)
    (f : β → β) : alookup (aupdate m k f) k = (alookup m k).map f := by
  unfold aupdate alookup
  induction m with
  | nil => rfl
  | cons kv t ih =>
    by_cases hk : kv.1 = k
    · rw [List.map_cons, if_pos hk, List.find?_cons_of_pos _ (by simp),
        List.find?_cons_of_pos _ (by simp [hk])]
      rfl
    · rw [List.map_cons, if_neg hk, List.find?_cons_of_neg _ (by simp [hk]),
        List.find?_cons_of_neg _ (by simp [hk])]
      exact ih

/-- `postMap[p.ID] = &p` over rows with fresh ids appends the bindings in
order. -/
theorem buildPostMap0_eq :
    ∀ (l : List Post) (m : List (Nat × Post)),
      (∀ p ∈ l, ∀ kv ∈ m, kv.1 ≠ p.id) → (l.map (fun p => p.id)).Nodup →
      l.foldl (fun m p => ainsert m p.id p) m = m ++ l.map (fun p => (p.id, p)) := by
  intro l
  induction l with
  | nil => intro m _ _; simp
  | cons p rest ih =>
    intro m hfresh hnd
    rw [List.foldl_cons]
    have hany : m.any (fun kv => kv.1 = p.id) = false := by
      rw [Bool.eq_false_iff]
      intro ha
      obtain ⟨kv, hkv, hk⟩ := List.any_eq_true.mp ha
      exact hfresh p (List.mem_cons_self p rest) kv hkv (by simpa using hk)
    have hins : ainsert m p.id p = m ++ [(p.id, p)] := by
      unfold ainsert
      rw [hany]
      simp
    rw [hins]
    rw [List.map_cons, List.nodup_cons] at hnd
    rw [ih (m ++ [(p.id, p)]) ?_ hnd.2]
    · simp
    · intro q hq kv hkv
      rcases List.mem_append.mp hkv with h | h
      · exact hfresh q (List.mem_cons_of_mem p hq) kv h
      · rw [List.mem_singleton.mp h]
        intro he
        have he2 : p.id = q.id := he
        exact hnd.1 (by rw [he2]; exact List.mem_map_of_mem (fun p2 => p2.id) hq)

/-- find? commutes with a filter whose predicate is implied by the search
predicate. -/
theorem find?_filter_of_imp {α : Type} (l : List α) (p q : α → Bool)
    (h : ∀ a, p a = true → q a = true) : (l.filter q).find? p = l.find? p := by
  induction l with
  | nil => rfl
  | cons a t ih =>
    by_cases hq : q a
    · rw [List.filter_cons_of_pos hq]
      by_cases hp : p a
      · rw [List.find?_cons_of_pos _ hp, List.find?_cons_of_pos _ hp]
      · rw [List.find?_cons_of_neg _ hp, List.find?_cons_of_neg _ hp]
        exact ih
    · rw [List.filter_cons_of_neg hq]
      have hp : ¬ (p a = true) := fun hpa => hq (h a hpa)
      rw [List.find?_cons_of_neg _ hp]
      exact ih

/-- The aggregation scan leaves keys it never mentions untouched. -/
theorem buildPostMap_lookup_none (db : DB) :
    ∀ (agg : List Post) (m : List (Nat × Post)) (k : Nat),
      agg.find? (fun q2 => q2.id = k) = none →
      alookup (buildPostMap db agg m) k = alookup m k := by
  intro agg
  induction agg with
  | nil => intro m k _; rfl
  | cons q0 rest ih =>
    intro m k hfind
    have hq0 : ¬ (q0.id = k) := by
      intro he
      rw [List.find?_cons_of_pos _ (by simp [he])] at hfind
      cases hfind
    rw [List.find?_cons_of_neg _ (by simp [hq0])] at hfind
    have hstep : buildPostMap db (q0 :: rest) m = buildPostMap db rest (applyAggRow db m q0) :=
      rfl
    rw [hstep, ih _ k hfind]
    unfold applyAggRow
    cases db.users.find? (fun u2 => u2.id = q0.userId) with
    | none => rfl
    | some u0 => exact alookup_aupdate_ne m q0.id k _ hq0

/-- The aggregation scan: the entry of a key whose (unique) aggregation row
and author exist gets comment count and author columns applied. -/
theorem buildPostMap_lookup_found (db : DB) :
    ∀ (agg : List Post) (m : List (Nat × Post)) (k : Nat) (q : Post) (u : User),
      agg.find? (fun q2 => q2.id = k) = some q →
      db.users.find? (fun u2 => u2.id = q.userId) = some u →
      (∀ q2 ∈ agg, (db.users.find? (fun u2 => u2.id = q2.userId)).isSome) →
      (agg.map (fun p => p.id)).Nodup →
      alookup (buildPostMap db agg m) k =
        (alookup m k).map (fun post =>
          { post with
              commentCount := db.comments.countP (fun c => decide (c.postId = q.id)),
              user := aggUser u }) := by
  intro agg
  induction agg with
  | nil => intro m k q u hfind _ _ _; cases hfind
  | cons q0 rest ih =>
    intro m k q u hfind hu hsome hnd
    rw [List.map_cons, List.nodup_cons] at hnd
    have hstep : buildPostMap db (q0 :: rest) m = buildPostMap db rest (applyAggRow db m q0) :=
      rfl
    rw [hstep]
    obtain ⟨u0, hu0⟩ : ∃ u0, db.users.find? (fun u2 => u2.id = q0.userId) = some u0 := by
      have hs := hsome q0 (List.mem_cons_self q0 rest)
      cases hf : db.users.find? (fun u2 => u2.id = q0.userId) with
      | some x => exact ⟨x, rfl⟩
      | none => rw [hf] at hs; cases hs
    have happ : applyAggRow db m q0 = aupdate m q0.id (fun post =>
        { post with
            commentCount := db.comments.countP (fun c => decide (c.postId = q0.id)),
            user := aggUser u0 }) := by
      unfold applyAggRow
      rw [hu0]
    by_cases hqk : q0.id = k
    · have hq : q = q0 := by
        rw [List.find?_cons_of_pos _ (by simp [hqk])] at hfind
        exact (Option.some_inj.mp hfind).symm
      subst hq
      have hu0u : u0 = u := by
        rw [hu0] at hu
        exact Option.some_inj.mp hu
      subst hu0u
      have hrestnone : rest.find? (fun q2 => q2.id = k) = none := by
        apply List.find?_eq_none.mpr
        intro q2 hq2
        simp only [decide_eq_true_eq]
        intro he
        exact hnd.1 (by rw [hqk, ← he]; exact List.mem_map_of_mem (fun p => p.id) hq2)
      rw [buildPostMap_lookup_none db rest _ k hrestnone, happ, ← hqk,
        alookup_aupdate_eq]
    · rw [List.find?_cons_of_neg _ (by simp [hqk])] at hfind
      rw [ih (applyAggRow db m q0) k q u hfind hu
        (fun q2 h2 => hsome q2 (List.mem_cons_of_mem q0 h2)) hnd.2]
      rw [happ, alookup_aupdate_ne m q0.id k _ hqk]

/- ------------------------------------------------------------------ -/
/- Merge-loop characterization                                          -/
/- ------------------------------------------------------------------ -/

/-- The merge loop of makePosts is a filterMap over the input rows whenever
every input id resolves in the postMap. -/
theorem mergeFold_spec (pm : List (Nat × Post)) (rows : List Comment) (tok : String)
    (g : Post → Post) :
    ∀ (l : List Post), (∀ p ∈ l, alookup pm p.id = some (g p)) →
      mergeFold pm rows tok l = l.filterMap (fun p =>
        let post2 := { g p with
                         comments := rows.filter (fun c => decide (c.postId = p.id)),
                         csrfToken := tok }
        if post2.user.delFlg == 0 then some post2 else none) := by
  have hgo : ∀ (l : List Post), (∀ p ∈ l, alookup pm p.id = some (g p)) →
      ∀ acc, l.foldl (mergeStep pm rows tok) acc =
        acc ++ l.filterMap (fun p =>
          let post2 := { g p with
                           comments := rows.filter (fun c => decide (c.postId = p.id)),
                           csrfToken := tok }
          if post2.user.delFlg == 0 then some post2 else none) := by
    intro l
    induction l with
    | nil => intro _ acc; simp
    | cons p rest ih =>
      intro hlook acc
      rw [List.foldl_cons, List.filterMap_cons]
      have hstep : mergeStep pm rows tok acc p =
          acc ++ ((fun p =>
            let post2 := ({ g p with
                             comments := rows.filter (fun c => decide (c.postId = p.id)),
                             csrfToken := tok } : Post)
            if post2.user.delFlg == 0 then some post2 else none) p).toList := by
        unfold mergeStep
        rw [hlook p (List.mem_cons_self p rest)]
        dsimp only
        split
        next hdel => simp
        next hdel => simp
      rw [hstep, ih (fun p2 h2 => hlook p2 (List.mem_cons_of_mem p h2))]
      by_cases hopt : (g p).user.delFlg = 0
      · simp [hopt]
      · simp [hopt]
  intro l hlook
  have := hgo l hlook []
  simpa using this

/-- hydratePost never changes the id field. -/
theorem hydratePost_id (db : DB) (p : Post) : (hydratePost db p).id = p.id := by
  unfold hydratePost
  split
  · split
    · rfl
    · rfl
  · rfl

/-- Full characterization of a successful makePosts: with distinct input ids,
distinct post-table ids, and every input row backed by a post-table row whose
author exists, makePosts hydrates every input row in order and keeps exactly
those whose author is not flagged deleted. -/
theorem makePosts_ok_spec (db : DB) (results : List Post) (tok : String) (allC : Bool)
    (hres : results ≠ [])
    (hnodup : (results.map (fun p => p.id)).Nodup)
    (hdbnodup : (db.posts.map (fun p => p.id)).Nodup)
    (hfound : ∀ p ∈ results, ∃ q, q ∈ db.posts ∧ q.id = p.id ∧
        (db.users.find? (fun u => u.id = q.userId)).isSome) :
    makePosts db results tok allC = Except.ok (results.filterMap (fun p =>
      let post2 := { hydratePost db p with
                       comments := (commentRows db (results.map (fun p2 => p2.id)) allC).filter
                         (fun c => decide (c.postId = p.id)),
                       csrfToken := tok }
      if post2.user.delFlg == 0 then some post2 else none)) := by
  have hagg_nd : ((aggRows db (results.map (fun p2 => p2.id))).map (fun p => p.id)).Nodup :=
    ((List.filter_sublist db.posts).map (fun p => p.id)).nodup hdbnodup
  have hagg_some : ∀ q2 ∈ aggRows db (results.map (fun p2 => p2.id)),
      (db.users.find? (fun u => u.id = q2.userId)).isSome := by
    intro q2 hq2
    have hq2db : q2 ∈ db.posts := List.mem_of_mem_filter hq2
    have hq2id := List.of_mem_filter hq2
    simp only [decide_eq_true_eq] at hq2id
    obtain ⟨p, hp, hpid⟩ := List.mem_map.mp hq2id
    obtain ⟨q, hqdb, hqid, hqsome⟩ := hfound p hp
    have hqq : q = q2 :=
      List.inj_on_of_nodup_map hdbnodup hqdb hq2db (by rw [hqid, hpid])
    rw [← hqq]
    exact hqsome
  have hany_false : ((aggRows db (results.map (fun p2 => p2.id))).any
      (fun q => (db.users.find? (fun u => u.id = q.userId)).isNone)) = false := by
    rw [Bool.eq_false_iff]
    intro ha
    obtain ⟨q2, hq2, hnone⟩ := List.any_eq_true.mp ha
    have hs := hagg_some q2 hq2
    rw [Option.isNone_iff_eq_none.mp hnone] at hs
    cases hs
  have hlook : ∀ p ∈ results,
      alookup (buildPostMap db (aggRows db (results.map (fun p2 => p2.id)))
        (buildPostMap0 results)) p.id = some (hydratePost db p) := by
    intro p hp
    obtain ⟨q, hqdb, hqid, hqsome⟩ := hfound p hp
    obtain ⟨u, hu⟩ : ∃ u, db.users.find? (fun u2 => u2.id = q.userId) = some u := by
      cases hf : db.users.find? (fun u2 => u2.id = q.userId) with
      | some x => exact ⟨x, rfl⟩
      | none => rw [hf] at hqsome; cases hqsome
    have hdbfind : db.posts.find? (fun q2 => q2.id = p.id) = some q := by
      have hfq : db.posts.find? (fun x => x.id = q.id) = some q :=
        find?_key_unique (fun p2 => p2.id) db.posts q hdbnodup hqdb
      rw [hqid] at hfq
      exact hfq
    have haggfind : (aggRows db (results.map (fun p2 => p2.id))).find?
        (fun q2 => q2.id = p.id) = some q := by
      unfold aggRows
      rw [find?_filter_of_imp db.posts _ _ ?_]
      · exact hdbfind
      · intro a hpa
        simp only [decide_eq_true_eq] at hpa ⊢
        rw [hpa]
        exact List.mem_map_of_mem (fun p2 => p2.id) hp
    rw [buildPostMap_lookup_found db _ _ p.id q u haggfind hu hagg_some hagg_nd]
    have h0 : buildPostMap0 results = results.map (fun p2 => (p2.id, p2)) := by
      have := buildPostMap0_eq results [] (by intro _ _ kv hkv; cases hkv) hnodup
      unfold buildPostMap0
      rw [this]
      simp
    rw [h0]
    have hnd2 : ((results.map (fun p2 => (p2.id, p2))).map (fun kv => kv.1)).Nodup := by
      rw [List.map_map]
      exact hnodup
    have hmem2 : (p.id, p) ∈ results.map (fun p2 => (p2.id, p2)) :=
      List.mem_map_of_mem (fun p2 => (p2.id, p2)) hp
    have hal := alookup_eq (results.map (fun p2 => (p2.id, p2))) (p.id, p) hnd2 hmem2
    rw [hal]
    simp only [Option.map_some']
    congr 1
    unfold hydratePost
    simp only [hdbfind, hu]
  unfold makePosts
  rw [if_neg (by simpa [List.isEmpty_iff] using hres)]
  dsimp only
  rw [hany_false]
  simp only [Bool.false_eq_true, if_false]
  congr 1
  exact mergeFold_spec _ _ _ (hydratePost db) results hlook

/-- Projecting ids out of the merge result yields the id list of the input
rows filtered by the resolved author's deletion flag, in input order. -/
theorem filterMap_ids (db : DB) (rows : List Comment) (tok : String) :
    ∀ (l : List Post), (∀ p ∈ l, (hydratePost db p).user = resolvedAuthor db p.id) →
      (l.filterMap (fun p =>
        let post2 := { hydratePost db p with
                         comments := rows.filter (fun c => decide (c.postId = p.id)),
                         csrfToken := tok }
        if post2.user.delFlg == 0 then some post2 else none)).map (fun p => p.id) =
      (l.filter (fun p => (resolvedAuthor db p.id).delFlg = 0)).map (fun p => p.id) := by
  intro l
  induction l with
  | nil => intro _; rfl
  | cons p rest ih =>
    intro h
    have hp := h p (List.mem_cons_self p rest)
    have hrest := fun p2 h2 => h p2 (List.mem_cons_of_mem p h2)
    by_cases hc : (resolvedAuthor db p.id).delFlg = 0
    · simp only [List.filterMap_cons, List.filter_cons]
      simp [hp, hc, hydratePost_id]
      simpa [hydratePost_id] using ih hrest
    · simp only [List.filterMap_cons, List.filter_cons]
      simp [hp, hc]
      simpa using ih hrest

/-- Claim C2: for every non-empty list of post rows with distinct ids (each
backed by a posts-table row, with distinct table ids and existing authors),
makePosts succeeds and returns entries whose ids are exactly the subset of
the input ids whose resolved author has the deletion flag unset, in the same
relative order as the input list. -/
theorem makePosts_ids_filtered_ordered (db : DB) (results : List Post) (tok : String)
    (allC : Bool)
    (hres : results ≠ [])
    (hnodup : (results.map (fun p => p.id)).Nodup)
    (hdbnodup : (db.posts.map (fun p => p.id)).Nodup)
    (hfound : ∀ p ∈ results, ∃ q, q ∈ db.posts ∧ q.id = p.id ∧
        (db.users.find? (fun u => u.id = q.userId)).isSome) :
    (makePosts db results tok allC).toOption.map (fun out => out.map (fun p => p.id)) =
      some ((results.filter (fun p => (resolvedAuthor db p.id).delFlg = 0)).map
        (fun p => p.id)) := by
  rw [makePosts_ok_spec db results tok allC hres hnodup hdbnodup hfound]
  simp only [Except.toOption, Option.map_some']
  congr 1
  apply filterMap_ids
  intro p hp
  obtain ⟨q, hqdb, hqid, hqsome⟩ := hfound p hp
  obtain ⟨u, hu⟩ : ∃ u, db.users.find? (fun u2 => u2.id = q.userId) = some u := by
    cases hf : db.users.find? (fun u2 => u2.id = q.userId) with
    | some x => exact ⟨x, rfl⟩
    | none => rw [hf] at hqsome; cases hqsome
  have hdbfind : db.posts.find? (fun q2 => q2.id = p.id) = some q := by
    have hfq : db.posts.find? (fun x => x.id = q.id) = some q :=
      find?_key_unique (fun p2 => p2.id) db.posts q hdbnodup hqdb
    rw [hqid] at hfq
    exact hfq
  unfold hydratePost resolvedAuthor
  simp only [hdbfind, hu]

/-- Witness for Claim C2: two rows whose authors are ordinary and banned
produce exactly the first id, in order. -/
theorem makePosts_ids_filtered_ordered_witness :
    ([exRow 1 1, exRow 2 2] ≠ ([] : List Post)) ∧
    (([exRow 1 1, exRow 2 2].map (fun p => p.id)).Nodup) ∧
    ((exDbTwo.posts.map (fun p => p.id)).Nodup) ∧
    (∀ p ∈ [exRow 1 1, exRow 2 2], ∃ q, q ∈ exDbTwo.posts ∧ q.id = p.id ∧
      (exDbTwo.users.find? (fun u => u.id = q.userId)).isSome) ∧
    (makePosts exDbTwo [exRow 1 1, exRow 2 2] "tok" false).toOption.map
      (fun out => out.map (fun p => p.id)) =
      some (([exRow 1 1, exRow 2 2].filter
        (fun p => (resolvedAuthor exDbTwo p.id).delFlg = 0)).map (fun p => p.id)) := by
  refine ⟨by decide, by decide, by decide, by decide, ?_⟩
  exact makePosts_ids_filtered_ordered exDbTwo [exRow 1 1, exRow 2 2] "tok" false
    (by decide) (by decide) (by decide) (by decide)

/- ------------------------------------------------------------------ -/
/- Comment-ordering lemmas (second query of makePosts)                 -/
/- ------------------------------------------------------------------ -/

/-- Stable descending insertion is a permutation of consing. -/
theorem insertDesc_perm (c : Comment) : ∀ l : List Comment, (insertDesc c l).Perm (c :: l) := by
  intro l
  induction l with
  | nil => exact List.Perm.refl _
  | cons d rest ih =>
    unfold insertDesc
    by_cases h : d.createdAt ≤ c.createdAt
    · rw [if_pos h]
    · rw [if_neg h]
      exact List.Perm.trans (List.Perm.cons d ih) (List.Perm.swap c d rest)

/-- The descending sort permutes its input. -/
theorem sortCommentsDesc_perm : ∀ l : List Comment, (sortCommentsDesc l).Perm l := by
  intro l
  induction l with
  | nil => exact List.Perm.refl _
  | cons c rest ih =>
    simp only [sortCommentsDesc]
    exact List.Perm.trans (insertDesc_perm c (sortCommentsDesc rest)) (List.Perm.cons c ih)

/-- Inserting into a descending-sorted list keeps it sorted. -/
theorem insertDesc_sorted (c : Comment) :
    ∀ l : List Comment, l.Pairwise (fun a b => b.createdAt ≤ a.createdAt) →
      (insertDesc c l).Pairwise (fun a b => b.createdAt ≤ a.createdAt) := by
  intro l
  induction l with
  | nil => intro _; simp [insertDesc]
  | cons d rest ih =>
    intro hl
    rw [List.pairwise_cons] at hl
    unfold insertDesc
    by_cases h : d.createdAt ≤ c.createdAt
    · rw [if_pos h]
      rw [List.pairwise_cons]
      constructor
      · intro b hb
        rcases List.mem_cons.mp hb with rfl | hm
        · exact h
        · exact Nat.le_trans (hl.1 b hm) h
      · rw [List.pairwise_cons]
        exact hl
    · rw [if_neg h]
      rw [List.pairwise_cons]
      constructor
      · intro b hb
        have hmem := (insertDesc_perm c rest).mem_iff.mp hb
        rcases List.mem_cons.mp hmem with rfl | hm
        · exact Nat.le_of_lt (Nat.lt_of_not_le h)
        · exact hl.1 b hm
      · exact ih hl.2

/-- The descending sort sorts. -/
theorem sortCommentsDesc_sorted :
    ∀ l : List Comment,
      (sortCommentsDesc l).Pairwise (fun a b => b.createdAt ≤ a.createdAt) := by
  intro l
  induction l with
  | nil => simp [sortCommentsDesc]
  | cons c rest ih =>
    simp only [sortCommentsDesc]
    exact insertDesc_sorted c _ ih

/-- Unfolding equation of insertDesc on a cons. -/
theorem insertDesc_cons (c d : Comment) (rest : List Comment) :
    insertDesc c (d :: rest) =
      if d.createdAt ≤ c.createdAt then c :: d :: rest else d :: insertDesc c rest := rfl

/-- Filtering commutes with a stable insertion into a sorted list. -/
theorem filter_insertDesc (p : Comment → Bool) (c : Comment) :
    ∀ l : List Comment, l.Pairwise (fun a b => b.createdAt ≤ a.createdAt) →
      (insertDesc c l).filter p =
        if p c then insertDesc c (l.filter p) else l.filter p := by
  intro l
  induction l with
  | nil =>
    intro _
    by_cases hc : p c <;> simp [insertDesc, List.filter_cons, hc]
  | cons d rest ih =>
    intro hl
    rw [List.pairwise_cons] at hl
    rw [insertDesc_cons]
    by_cases h : d.createdAt ≤ c.createdAt
    · rw [if_pos h, List.filter_cons]
      by_cases hc : p c
      · rw [if_pos hc, if_pos hc]
        cases hfr : (d :: rest).filter p with
        | nil => rfl
        | cons e tail =>
          rw [insertDesc_cons, if_pos ?_]
          have he : e ∈ d :: rest :=
            List.mem_of_mem_filter (hfr ▸ List.mem_cons_self e tail)
          rcases List.mem_cons.mp he with rfl | hm
          · exact h
          · exact Nat.le_trans (hl.1 e hm) h
      · rw [if_neg hc, if_neg hc]
    · rw [if_neg h, List.filter_cons, ih hl.2, List.filter_cons]
      by_cases hc : p c <;> by_cases hd : p d
      · simp only [if_pos hc, if_pos hd]
        rw [insertDesc_cons, if_neg h]
      · simp only [if_pos hc, if_neg hd]
      · simp only [if_neg hc, if_pos hd]
      · simp only [if_neg hc, if_neg hd]

/-- Filtering commutes with the descending sort. -/
theorem filter_sortCommentsDesc (p : Comment → Bool) :
    ∀ l : List Comment, (sortCommentsDesc l).filter p = sortCommentsDesc (l.filter p) := by
  intro l
  induction l with
  | nil => rfl
  | cons c rest ih =>
    simp only [sortCommentsDesc]
    rw [filter_insertDesc p c _ (sortCommentsDesc_sorted rest), ih, List.filter_cons]
    by_cases hc : p c
    · rw [if_pos hc, if_pos hc]
      simp only [sortCommentsDesc]
    · rw [if_neg hc, if_neg hc]

/-- A tick-preserving map commutes with the stable insertion. -/
theorem insertDesc_map (g : Comment → Comment) (hg : ∀ c, (g c).createdAt = c.createdAt)
    (c : Comment) : ∀ l : List Comment,
      insertDesc (g c) (l.map g) = (insertDesc c l).map g := by
  intro l
  induction l with
  | nil => rfl
  | cons d rest ih =>
    rw [List.map_cons]
    unfold insertDesc
    rw [hg, hg]
    by_cases h : d.createdAt ≤ c.createdAt
    · rw [if_pos h, if_pos h]
      simp
    · rw [if_neg h, if_neg h]
      rw [List.map_cons, ih]

/-- A tick-preserving map commutes with the descending sort. -/
theorem sortCommentsDesc_map (g : Comment → Comment)
    (hg : ∀ c, (g c).createdAt = c.createdAt) :
    ∀ l : List Comment, sortCommentsDesc (l.map g) = (sortCommentsDesc l).map g := by
  intro l
  induction l with
  | nil => rfl
  | cons c rest ih =>
    rw [List.map_cons]
    simp only [sortCommentsDesc]
    rw [ih, insertDesc_map g hg]

/-- When every author exists the join is the author-attaching map. -/
theorem joinUsers_eq_map (db : DB) :
    ∀ l : List Comment, (∀ c ∈ l, (db.users.find? (fun u => u.id = c.userId)).isSome) →
      joinUsers db l = l.map (attachUser db) := by
  intro l
  induction l with
  | nil => intro _; rfl
  | cons c rest ih =>
    intro h
    obtain ⟨u, hu⟩ : ∃ u, db.users.find? (fun u2 => u2.id = c.userId) = some u := by
      have hs := h c (List.mem_cons_self c rest)
      cases hf : db.users.find? (fun u2 => u2.id = c.userId) with
      | some x => exact ⟨x, rfl⟩
      | none => rw [hf] at hs; cases hs
    have hrest := ih (fun c2 h2 => h c2 (List.mem_cons_of_mem c h2))
    unfold joinUsers at hrest ⊢
    rw [List.filterMap_cons, List.map_cons, hu]
    simp only [Option.map_some']
    rw [hrest]
    congr 1
    unfold attachUser
    rw [hu]
    rfl

/-- Bounding a count of a disjunction by the sum of the counts. -/
theorem countP_or_le {α : Type} (p q : α → Bool) :
    ∀ l : List α, l.countP (fun a => p a || q a) ≤ l.countP p + l.countP q := by
  intro l
  induction l with
  | nil => simp [List.countP_nil]
  | cons a t ih =>
    rw [List.countP_cons, List.countP_cons, List.countP_cons]
    by_cases hp : p a <;> by_cases hq : q a <;> simp [hp, hq] <;> omega

/-- In a list with distinct ids, at most |L| elements have their id in L. -/
theorem countP_le_of_ids (l : List Comment) (hnd : (l.map (fun c => c.id)).Nodup)
    (L : List Nat) (p : Comment → Bool) (hp : ∀ c ∈ l, p c = true → c.id ∈ L) :
    l.countP p ≤ L.length := by
  rw [List.countP_eq_length_filter]
  have hnd2 : ((l.filter p).map (fun c => c.id)).Nodup :=
    ((List.filter_sublist l).map (fun c => c.id)).nodup hnd
  have hsub : ((l.filter p).map (fun c => c.id)) ⊆ L := by
    intro i hi
    obtain ⟨c, hc, rfl⟩ := List.mem_map.mp hi
    exact hp c (List.mem_of_mem_filter hc) (by simpa using List.of_mem_filter hc)
  have hlen := (List.subperm_of_subset hnd2 hsub).length_le
  rw [List.length_map] at hlen
  exact hlen

/-- The eligible comment set of the feed path (per-post top-3 over a set of
distinct post ids) has at most 3 rows per post id. -/
theorem elig_countP_le (db : DB) (hcid : (db.comments.map (fun c => c.id)).Nodup) :
    ∀ pids : List Nat, pids.Nodup →
      db.comments.countP (fun c => decide (c.postId ∈ pids) &&
        decide (c.id ∈ top3Ids db c.postId)) ≤ 3 * pids.length := by
  intro pids
  induction pids with
  | nil =>
    intro _
    simp [List.countP_eq_length_filter]
  | cons pid rest ih =>
    intro hnd
    rw [List.nodup_cons] at hnd
    have hcongr : db.comments.countP (fun c => decide (c.postId ∈ pid :: rest) &&
        decide (c.id ∈ top3Ids db c.postId)) =
        db.comments.countP (fun c =>
          (decide (c.postId = pid) && decide (c.id ∈ top3Ids db c.postId)) ||
          (decide (c.postId ∈ rest) && decide (c.id ∈ top3Ids db c.postId))) := by
      apply List.countP_congr
      intro c _
      by_cases h1 : c.postId = pid <;> by_cases h2 : c.postId ∈ rest <;>
        by_cases h3 : c.id ∈ top3Ids db c.postId <;> simp [h1, h2, h3]
    rw [hcongr]
    have hsplit := countP_or_le
      (fun c => decide (c.postId = pid) && decide (c.id ∈ top3Ids db c.postId))
      (fun c => decide (c.postId ∈ rest) && decide (c.id ∈ top3Ids db c.postId)) db.comments
    have h1 : db.comments.countP
        (fun c => decide (c.postId = pid) && decide (c.id ∈ top3Ids db c.postId)) ≤ 3 := by
      have hlen3 : (top3Ids db pid).length ≤ 3 := by
        unfold top3Ids
        rw [List.length_map]
        exact List.length_take_le 3 _
      have hle := countP_le_of_ids db.comments hcid (top3Ids db pid)
        (fun c => decide (c.postId = pid) && decide (c.id ∈ top3Ids db c.postId)) ?_
      · omega
      · intro c hc hpc
        rw [Bool.and_eq_true, decide_eq_true_eq, decide_eq_true_eq] at hpc
        rw [← hpc.1]
        exact hpc.2
    have h2 := ih hnd.2
    simp only [List.length_cons]
    omega

/-- Two sorted lists with pairwise distinct ticks that are permutations of
each other are equal. -/
theorem sorted_perm_unique :
    ∀ (l1 l2 : List Comment), l1.Perm l2 →
      l1.Pairwise (fun a b => b.createdAt ≤ a.createdAt) →
      l2.Pairwise (fun a b => b.createdAt ≤ a.createdAt) →
      (l1.map (fun c => c.createdAt)).Nodup → l1 = l2 := by
  intro l1
  induction l1 with
  | nil =>
    intro l2 hperm _ _ _
    exact (List.perm_nil.mp hperm.symm).symm
  | cons a t1 ih =>
    intro l2 hperm hs1 hs2 hnd
    cases l2 with
    | nil => exact absurd (List.perm_nil.mp hperm) (by simp)
    | cons b t2 =>
      have hab : a = b := by
        by_cases hab : a = b
        · exact hab
        · exfalso
          have hbmem : b ∈ a :: t1 := hperm.mem_iff.mpr (List.mem_cons_self b t2)
          have hamem : a ∈ b :: t2 := hperm.mem_iff.mp (List.mem_cons_self a t1)
          have hb1 : b ∈ t1 := by
            rcases List.mem_cons.mp hbmem with h | h
            · exact absurd h.symm hab
            · exact h
          have ha2 : a ∈ t2 := by
            rcases List.mem_cons.mp hamem with h | h
            · exact absurd h hab
            · exact h
          rw [List.pairwise_cons] at hs1 hs2
          have h1 : b.createdAt ≤ a.createdAt := hs1.1 b hb1
          have h2 : a.createdAt ≤ b.createdAt := hs2.1 a ha2
          have heq : b.createdAt = a.createdAt := Nat.le_antisymm h1 h2
          rw [List.map_cons, List.nodup_cons] at hnd
          exact hnd.1 (heq ▸ List.mem_map_of_mem (fun c => c.createdAt) hb1)
      subst hab
      have ht : t1.Perm t2 := hperm.cons_inv
      rw [List.pairwise_cons] at hs1 hs2
      rw [List.map_cons, List.nodup_cons] at hnd
      rw [ih t2 ht hs1.2 hs2.2 hnd.2]

/-- Per-post projection of the feed comment rows: restricted to one queried
post id, the rows of the allComments=false query are exactly that post's
three most recent author-joined comments in descending tick order. -/
theorem commentRows_filter_pid (db : DB) (postIDs : List Nat) (pid : Nat)
    (hpid : pid ∈ postIDs)
    (hpids : postIDs.Nodup)
    (hcid : (db.comments.map (fun c => c.id)).Nodup)
    (htime : (db.comments.map (fun c => c.createdAt)).Nodup)
    (hauth : ∀ c ∈ db.comments, (db.users.find? (fun u => u.id = c.userId)).isSome) :
    (commentRows db postIDs false).filter (fun c => decide (c.postId = pid)) =
      (sortCommentsDesc (joinUsers db (db.comments.filter
        (fun c => decide (c.postId = pid))))).take 3 := by
  have hattach_time : ∀ c, (attachUser db c).createdAt = c.createdAt := fun c => rfl
  have hcomnd : db.comments.Nodup := List.Nodup.of_map (fun c => c.id) hcid
  have hrows : commentRows db postIDs false =
      (sortCommentsDesc (joinUsers db (db.comments.filter (fun c =>
        decide (c.postId ∈ postIDs) && decide (c.id ∈ top3Ids db c.postId))))).take
        (3 * postIDs.length) := by
    simp only [commentRows, Bool.false_or]
  have helig_le : (db.comments.filter (fun c =>
      decide (c.postId ∈ postIDs) && decide (c.id ∈ top3Ids db c.postId))).length ≤
      3 * postIDs.length := by
    rw [← List.countP_eq_length_filter]
    exact elig_countP_le db hcid postIDs hpids
  have hjoin_le : (joinUsers db (db.comments.filter (fun c =>
      decide (c.postId ∈ postIDs) && decide (c.id ∈ top3Ids db c.postId)))).length ≤
      3 * postIDs.length := by
    unfold joinUsers
    exact Nat.le_trans (List.length_filterMap_le _ _) helig_le
  have hsort_le : (sortCommentsDesc (joinUsers db (db.comments.filter (fun c =>
      decide (c.postId ∈ postIDs) && decide (c.id ∈ top3Ids db c.postId))))).length ≤
      3 * postIDs.length := by
    rw [(sortCommentsDesc_perm _).length_eq]
    exact hjoin_le
  rw [hrows, List.take_of_length_le hsort_le]
  rw [joinUsers_eq_map db _ (fun c hc => hauth c (List.mem_of_mem_filter hc))]
  rw [sortCommentsDesc_map (attachUser db) hattach_time]
  rw [List.filter_map]
  have hpred : ∀ x, ((fun c => decide (c.postId = pid)) ∘ attachUser db) x =
      (fun c => decide (c.postId = pid)) x := fun x => rfl
  rw [List.filter_congr (fun x _ => hpred x)]
  rw [filter_sortCommentsDesc]
  rw [joinUsers_eq_map db _ (fun c hc => hauth c (List.mem_of_mem_filter hc))]
  rw [sortCommentsDesc_map (attachUser db) hattach_time, ← List.map_take]
  congr 1
  -- sortCommentsDesc (per-post eligible) = the top-3 take
  have hTpid : ∀ t ∈ (sortCommentsDesc (db.comments.filter
      (fun c => decide (c.postId = pid)))).take 3, t.postId = pid := by
    intro t ht
    have h2 := (sortCommentsDesc_perm _).mem_iff.mp (List.mem_of_mem_take ht)
    simpa using List.of_mem_filter h2
  have hTsub : ∀ t ∈ (sortCommentsDesc (db.comments.filter
      (fun c => decide (c.postId = pid)))).take 3, t ∈ db.comments := by
    intro t ht
    exact List.mem_of_mem_filter ((sortCommentsDesc_perm _).mem_iff.mp
      (List.mem_of_mem_take ht))
  have hTnodup : ((sortCommentsDesc (db.comments.filter
      (fun c => decide (c.postId = pid)))).take 3).Nodup :=
    (List.take_sublist 3 _).nodup ((sortCommentsDesc_perm _).symm.nodup
      ((List.filter_sublist _).nodup hcomnd))
  have hFperm : (db.comments.filter (fun c =>
      decide (c.postId ∈ postIDs) && decide (c.id ∈ top3Ids db c.postId))).filter
        (fun c => decide (c.postId = pid)) |>.Perm
      ((sortCommentsDesc (db.comments.filter
        (fun c => decide (c.postId = pid)))).take 3) := by
    rw [List.filter_filter]
    have hcongr : db.comments.filter (fun c => decide (c.postId = pid) &&
        (decide (c.postId ∈ postIDs) && decide (c.id ∈ top3Ids db c.postId))) =
        db.comments.filter (fun c => decide (c ∈ (sortCommentsDesc (db.comments.filter
          (fun c => decide (c.postId = pid)))).take 3)) := by
      apply List.filter_congr
      intro c hcmem
      by_cases hcp : c.postId = pid
      · have hiff : c.id ∈ top3Ids db pid ↔ c ∈ (sortCommentsDesc (db.comments.filter
            (fun c => decide (c.postId = pid)))).take 3 := by
          constructor
          · intro hid
            obtain ⟨t, htmem, htid⟩ := List.mem_map.mp hid
            have hct : c = t :=
              List.inj_on_of_nodup_map hcid hcmem (hTsub t htmem) htid.symm
            rw [hct]
            exact htmem
          · intro hT
            exact List.mem_map_of_mem (fun c => c.id) hT
        simp [hcp, hpid, hiff]
      · have hnot : ¬ (c ∈ (sortCommentsDesc (db.comments.filter
            (fun c => decide (c.postId = pid)))).take 3) :=
          fun hT => hcp (hTpid c hT)
        simp [hcp, hnot]
    rw [hcongr]
    have hfn : (db.comments.filter (fun c => decide (c ∈ (sortCommentsDesc
        (db.comments.filter (fun c => decide (c.postId = pid)))).take 3))).Nodup :=
      (List.filter_sublist _).nodup hcomnd
    rw [List.perm_ext_iff_of_nodup hfn hTnodup]
    intro a
    simp only [List.mem_filter, decide_eq_true_eq]
    constructor
    · intro h
      exact h.2
    · intro h
      exact ⟨hTsub a h, h⟩
  have hsorted1 := sortCommentsDesc_sorted ((db.comments.filter (fun c =>
      decide (c.postId ∈ postIDs) && decide (c.id ∈ top3Ids db c.postId))).filter
        (fun c => decide (c.postId = pid)))
  have hsorted2 : ((sortCommentsDesc (db.comments.filter
      (fun c => decide (c.postId = pid)))).take 3).Pairwise
      (fun a b => b.createdAt ≤ a.createdAt) :=
    (sortCommentsDesc_sorted _).sublist (List.take_sublist 3 _)
  apply sorted_perm_unique _ _ ((sortCommentsDesc_perm _).trans hFperm) hsorted1 hsorted2
  -- times nodup on the sorted per-post eligible list
  have hsubl : ((db.comments.filter (fun c =>
      decide (c.postId ∈ postIDs) && decide (c.id ∈ top3Ids db c.postId))).filter
        (fun c => decide (c.postId = pid))).Sublist db.comments :=
    ((List.filter_sublist _).trans (List.filter_sublist _))
  have hFtime : (((db.comments.filter (fun c =>
      decide (c.postId ∈ postIDs) && decide (c.id ∈ top3Ids db c.postId))).filter
        (fun c => decide (c.postId = pid))).map (fun c => c.createdAt)).Nodup :=
    (hsubl.map (fun c => c.createdAt)).nodup htime
  exact (((sortCommentsDesc_perm _).map (fun c => c.createdAt)).symm).nodup hFtime

/-- Claim C6: with allComments=false, every entry makePosts returns carries
that post's three most recent author-joined comments (the take-3 of the
descending-tick sort), ordered most-recent-first, hence at most 3 comments.
Well-formedness hypotheses: distinct input ids, distinct posts-table ids,
every input row backed by a table row with existing author, distinct comment
ids and ticks, every comment author present. -/
theorem makePosts_feed_comments (db : DB) (results : List Post) (tok : String)
    (hnodup : (results.map (fun p => p.id)).Nodup)
    (hdbnodup : (db.posts.map (fun p => p.id)).Nodup)
    (hfound : ∀ p ∈ results, ∃ q, q ∈ db.posts ∧ q.id = p.id ∧
        (db.users.find? (fun u => u.id = q.userId)).isSome)
    (hcid : (db.comments.map (fun c => c.id)).Nodup)
    (htime : (db.comments.map (fun c => c.createdAt)).Nodup)
    (hauth : ∀ c ∈ db.comments, (db.users.find? (fun u => u.id = c.userId)).isSome)
    (out : List Post) (hok : makePosts db results tok false = Except.ok out) :
    ∀ p ∈ out,
      p.comments = (sortCommentsDesc (joinUsers db (db.comments.filter
        (fun c => decide (c.postId = p.id))))).take 3 ∧
      p.comments.length ≤ 3 ∧
      p.comments.Pairwise (fun a b => b.createdAt ≤ a.createdAt) := by
  by_cases hres : results = []
  · subst hres
    have h0 : makePosts db [] tok false = Except.ok [] := rfl
    rw [h0] at hok
    cases hok
    intro p hp
    cases hp
  · rw [makePosts_ok_spec db results tok false hres hnodup hdbnodup hfound] at hok
    cases hok
    intro p hp
    obtain ⟨p0, hp0, hsome⟩ := List.mem_filterMap.mp hp
    dsimp only at hsome
    have hc1 : (commentRows db (results.map (fun p2 => p2.id)) false).filter
        (fun c => decide (c.postId = p0.id)) =
        (sortCommentsDesc (joinUsers db (db.comments.filter
          (fun c => decide (c.postId = p0.id))))).take 3 :=
      commentRows_filter_pid db (results.map (fun p2 => p2.id)) p0.id
        (List.mem_map_of_mem (fun p2 => p2.id) hp0) hnodup hcid htime hauth
    split at hsome
    next hdel =>
      have hpc : p.comments = (commentRows db (results.map (fun p2 => p2.id)) false).filter
          (fun c => decide (c.postId = p0.id)) := by
        rw [← Option.some_inj.mp hsome]
      have hpid2 : p.id = p0.id := by
        rw [← Option.some_inj.mp hsome]
        exact hydratePost_id db p0
      refine ⟨?_, ?_, ?_⟩
      · rw [hpc, hpid2, hc1]
      · rw [hpc, hc1]
        exact List.length_take_le 3 _
      · rw [hpc, hc1]
        exact (sortCommentsDesc_sorted _).sublist (List.take_sublist 3 _)
    next => cases hsome

/-- Witness for Claim C6 at a single post with four comments: the entry keeps
the three most recent and they are sorted most-recent-first. -/
theorem makePosts_feed_comments_witness :
    (([exRow 1 1].map (fun p => p.id)).Nodup) ∧
    ((exDbFour.posts.map (fun p => p.id)).Nodup) ∧
    (∀ p ∈ [exRow 1 1], ∃ q, q ∈ exDbFour.posts ∧ q.id = p.id ∧
      (exDbFour.users.find? (fun u => u.id = q.userId)).isSome) ∧
    ((exDbFour.comments.map (fun c => c.id)).Nodup) ∧
    ((exDbFour.comments.map (fun c => c.createdAt)).Nodup) ∧
    (∀ c ∈ exDbFour.comments, (exDbFour.users.find? (fun u => u.id = c.userId)).isSome) ∧
    makePosts exDbFour [exRow 1 1] "" false =
      Except.ok ((makePosts exDbFour [exRow 1 1] "" false).toOption.getD []) ∧
    (∀ p ∈ (makePosts exDbFour [exRow 1 1] "" false).toOption.getD [],
      p.comments = (sortCommentsDesc (joinUsers exDbFour (exDbFour.comments.filter
        (fun c => decide (c.postId = p.id))))).take 3 ∧
      p.comments.length ≤ 3 ∧
      p.comments.Pairwise (fun a b => b.createdAt ≤ a.createdAt)) := by
  refine ⟨by decide, by decide, by decide, by decide, by decide, by decide, by rfl, ?_⟩
  exact makePosts_feed_comments exDbFour [exRow 1 1] "" (by decide) (by decide) (by decide)
    (by decide) (by decide) (by decide)
    ((makePosts exDbFour [exRow 1 1] "" false).toOption.getD []) (by rfl)

/-- Witness for Claim C8: post 42 stored as image/png requested with extension
jpg on an empty cache answers not-found with the cache untouched. -/
theorem getImage_mismatch_notFound_witness :
    ((mkCache 100).data.find? (fun kv => kv.1 = toString 42 ++ "." ++ "jpg") = none) ∧
    (exDbPng.posts.find? (fun p => p.id = 42) =
      some { exRow 42 1 with mime := "image/png", imgdata := exBytes40 }) ∧
    (extMatchesMime "jpg" "image/png" = false) ∧
    getImage (mkCache 100) exDbPng 42 "jpg" 9 = (ImageResponse.notFound, mkCache 100) := by
  refine ⟨rfl, rfl, rfl, ?_⟩
  exact getImage_mismatch_notFound _ _ _ _ _ _ rfl rfl rfl

end Saba
